import Mathlib

/-!
# Cinder-Warping: `WarpPerspective`

A shallow embedding of `src/WarpPerspective.cpp` and proofs about it.

Conventions of the embedding.

* `float` is taken as exact arithmetic: every `float` is a rational number (`ℚ`).
* `vec2` is a pair of rationals, `vec2 q[4]` a function `Fin 4 → Vec2`, and
  `std::vector<vec2>` a list; `mPoints[i]` outside the vector is undefined in C++,
  here such a load gives `(0, 0)` and such a store does nothing.
* `mat4` is a 4×4 matrix of rationals whose entry `M i j` is component `i` of
  column `j`; the sixteen-argument constructor `mat4(...)` takes its arguments
  column by column, as glm does.
* The `float *a` handed to `gaussianElimination` is a flat buffer: an array of
  rationals addressed by the flat index `row * n + col`.  A load `a[idx]` is `rd`, a
  store `a[idx] = v` is `write`.  An access outside the buffer is undefined in C++;
  here such a load gives `0` and such a store does nothing.
* `for` loops are folds over the list of values taken by the loop variable, the
  `while` loop is a recursive function.
-/

namespace WarpPerspective

/-! ## The linear solver -/

/-- A flat `float` buffer, addressed by flat index. -/
abbrev Buf := Array ℚ

/-- The load `a[idx]`. -/
def rd (a : Buf) (idx : Nat) : ℚ := a.getD idx 0

/-- The store `a[idx] = v`. -/
def write (a : Buf) (idx : Nat) (v : ℚ) : Buf := a.setD idx v

/-- The pivot search of `gaussianElimination` (lines 264-269):
`maxi = i; for (k = i + 1; k < m; ++k) if (fabs(a[k*n+j]) > fabs(a[maxi*n+j])) maxi = k;` -/
def findPivot (a : Buf) (n m i j : Nat) : Nat :=
  (List.range' (i + 1) (m - (i + 1))).foldl
    (fun maxi k => if |rd a (k * n + j)| > |rd a (maxi * n + j)| then k else maxi) i

/-- The row swap (lines 273-277):
`for (k = 0; k < n; k++) { aux = a[i*n+k]; a[i*n+k] = a[maxi*n+k]; a[maxi*n+k] = aux; }` -/
def swapRows (a : Buf) (n i maxi : Nat) : Buf :=
  (List.range n).foldl
    (fun a k =>
      let aux := rd a (i * n + k)
      write (write a (i * n + k) (rd a (maxi * n + k))) (maxi * n + k) aux) a

/-- The normalisation of the pivot row (lines 280-282), `a_ij` having been read before
the loop: `for (k = 0; k < n; k++) a[i*n+k] /= a_ij;` -/
def divideRow (a : Buf) (n i : Nat) (a_ij : ℚ) : Buf :=
  (List.range n).foldl (fun a k => write a (i * n + k) (rd a (i * n + k) / a_ij)) a

/-- The inner loop of the elimination (lines 286-288), `a_uj` having been read before
the loop: `for (k = 0; k < n; k++) a[u*n+k] -= a_uj * a[i*n+k];` -/
def eliminateRow (a : Buf) (n i u : Nat) (a_uj : ℚ) : Buf :=
  (List.range n).foldl
    (fun a k => write a (u * n + k) (rd a (u * n + k) - a_uj * rd a (i * n + k))) a

/-- The elimination below the pivot (lines 284-289):
`for (u = i + 1; u < m; u++) { a_uj = a[u*n+j]; ... }` -/
def eliminateBelow (a : Buf) (n m i j : Nat) : Buf :=
  (List.range' (i + 1) (m - (i + 1))).foldl
    (fun a u => eliminateRow a n i u (rd a (u * n + j))) a

/-- The forward phase of `gaussianElimination` (lines 263-294): the `while` loop,
started at row `i` and column `j`. -/
def forwardLoop (n m : Nat) (i j : Nat) (a : Buf) : Buf :=
  if i < m ∧ j < n then
    let maxi := findPivot a n m i j
    if rd a (maxi * n + j) ≠ 0 then
      let a1 := if i ≠ maxi then swapRows a n i maxi else a
      let a_ij := rd a1 (i * n + j)
      let a2 := divideRow a1 n i a_ij
      let a3 := eliminateBelow a2 n m i j
      forwardLoop n m (i + 1) (j + 1) a3
    else
      forwardLoop n m i (j + 1) a
  else a
termination_by n - j
decreasing_by all_goals omega

/-- The inner loop of the back-substitution (lines 297-299):
`for (j = i + 1; j < n - 1; j++) a[i*n+m] -= a[i*n+j] * a[j*n+m];` -/
def backSubstituteRow (a : Buf) (n m i : Nat) : Buf :=
  (List.range' (i + 1) (n - 1 - (i + 1))).foldl
    (fun a j => write a (i * n + m) (rd a (i * n + m) - rd a (i * n + j) * rd a (j * n + m))) a

/-- The back-substitution (lines 296-300): `for (i = m - 2; i >= 0; --i) { ... }`.
The loop variable is a signed `int`; it takes the values `m-2, m-3, ..., 0`, and none
when `m < 2`. -/
def backSubstitute (a : Buf) (n m : Nat) : Buf :=
  (List.range (m - 1)).reverse.foldl (fun a i => backSubstituteRow a n m i) a

/-- `WarpPerspective::gaussianElimination( float *a, int n )`: the contents of the
buffer when the function returns. -/
def gaussianElimination (a : Buf) (n : Nat) : Buf :=
  let m := n - 1
  backSubstitute (forwardLoop n m 0 0 a) n m

/-- Row `x` of the 8×9 matrix held in the buffer, applied to a vector `w` with nine
components: the sum of `a[x*9+c] * w c` over the columns `c = 0..8`.  With `w 8 = -1`
it vanishes exactly when `w 0 .. w 7` satisfy equation `x` of the system. -/
def rowDot (a : Buf) (x : Nat) (w : Nat → ℚ) : ℚ :=
  ∑ c in Finset.range 9, rd a (x * 9 + c) * w c

/-- The first `i` columns of the 8×9 matrix held in the buffer are reduced: ones on
the diagonal, zeros below it. -/
def Echelon (a : Buf) (i : Nat) : Prop :=
  (∀ c, c < i → rd a (c * 9 + c) = 1)
  ∧ ∀ c x, c < i → c < x → x < 8 → rd a (x * 9 + c) = 0

/-- The 8×8 coefficient block (columns 0..7) of the 8×9 matrix held in the buffer. -/
def coeffBlock (a : Buf) : Matrix (Fin 8) (Fin 8) ℚ :=
  Matrix.of fun r c => rd a (r.val * 9 + c.val)

/-! ## Points, matrices and the homography -/

/-- The glm `vec2`: `v[0]` is `x`, `v[1]` is `y`. -/
structure Vec2 where
  x : ℚ
  y : ℚ
deriving DecidableEq, Repr

/-- The glm `mat4`; `M i j` is component `i` of column `j`. -/
abbrev Mat4 := Matrix (Fin 4) (Fin 4) ℚ

/-- The glm constructor `mat4(x0, y0, z0, w0, x1, ..., w3)`, whose arguments are the
four columns one after the other. -/
def mat4 (x0 y0 z0 w0 x1 y1 z1 w1 x2 y2 z2 w2 x3 y3 z3 w3 : ℚ) : Mat4 :=
  !![x0, x1, x2, x3; y0, y1, y2, y3; z0, z1, z2, z3; w0, w1, w2, w3]

/-- Modelled from the spec: `glm::inverse` belongs to the glm library, which is not
part of the source; the spec calls it "the exact matrix inverse of Transform (general
4x4 inversion)".  As in glm, it is the matrix of cofactors multiplied by one over the
determinant. -/
def inverse (M : Mat4) : Mat4 := (M.det)⁻¹ • M.adjugate

/-- The initialiser of `float p[8][9]` in `getPerspectiveTransform` (lines 236-245). -/
def initP (src dst : Fin 4 → Vec2) : List (List ℚ) :=
  [ [-(src 0).x, -(src 0).y, -1, 0, 0, 0, (src 0).x * (dst 0).x, (src 0).y * (dst 0).x, -(dst 0).x],
    [0, 0, 0, -(src 0).x, -(src 0).y, -1, (src 0).x * (dst 0).y, (src 0).y * (dst 0).y, -(dst 0).y],
    [-(src 1).x, -(src 1).y, -1, 0, 0, 0, (src 1).x * (dst 1).x, (src 1).y * (dst 1).x, -(dst 1).x],
    [0, 0, 0, -(src 1).x, -(src 1).y, -1, (src 1).x * (dst 1).y, (src 1).y * (dst 1).y, -(dst 1).y],
    [-(src 2).x, -(src 2).y, -1, 0, 0, 0, (src 2).x * (dst 2).x, (src 2).y * (dst 2).x, -(dst 2).x],
    [0, 0, 0, -(src 2).x, -(src 2).y, -1, (src 2).x * (dst 2).y, (src 2).y * (dst 2).y, -(dst 2).y],
    [-(src 3).x, -(src 3).y, -1, 0, 0, 0, (src 3).x * (dst 3).x, (src 3).y * (dst 3).x, -(dst 3).x],
    [0, 0, 0, -(src 3).x, -(src 3).y, -1, (src 3).x * (dst 3).y, (src 3).y * (dst 3).y, -(dst 3).y] ]

/-- The flat view `&p[0][0]` of a two-dimensional array: the rows one after the other,
so that `p[r][c]` is at flat index `r * 9 + c` when the rows have 9 entries. -/
def flat (rows : List (List ℚ)) : Buf := rows.flatten.toArray

/-- `WarpPerspective::getPerspectiveTransform( const vec2 src[4], const vec2 dst[4] )`. -/
def getPerspectiveTransform (src dst : Fin 4 → Vec2) : Mat4 :=
  let p := gaussianElimination (flat (initP src dst)) 9
  mat4 (rd p (0 * 9 + 8)) (rd p (3 * 9 + 8)) 0 (rd p (6 * 9 + 8))
       (rd p (1 * 9 + 8)) (rd p (4 * 9 + 8)) 0 (rd p (7 * 9 + 8))
       0 0 1 0
       (rd p (2 * 9 + 8)) (rd p (5 * 9 + 8)) 0 1

/-- The point `(x, y)` in the homogeneous coordinates the 4×4 matrix acts on:
`(x, y, 0, 1)`. -/
def homogeneous (p : Vec2) : Fin 4 → ℚ := ![p.x, p.y, 0, 1]

/-- The projective weight `w = h31 * x + h32 * y + 1` of the point `p` under `M`;
`h31` and `h32` are the entries of the last row of `M` in columns 0 and 1. -/
def weight (M : Mat4) (p : Vec2) : ℚ := M 3 0 * p.x + M 3 1 * p.y + 1

/-- The point `p` mapped through `M`: `M` applied to `(x, y, 0, 1)`, followed by the
perspective divide. -/
def applyTransform (M : Mat4) (p : Vec2) : Vec2 :=
  ⟨(M.mulVec (homogeneous p)) 0 / (M.mulVec (homogeneous p)) 3,
   (M.mulVec (homogeneous p)) 1 / (M.mulVec (homogeneous p)) 3⟩

/-- The quad with the four given corners, in order. -/
def quad (p0 p1 p2 p3 : Vec2) : Fin 4 → Vec2 := ![p0, p1, p2, p3]

/-- The axis-aligned rectangle `[(0,0), (w,0), (w,h), (0,h)]`. -/
def rect (w h : ℚ) : Fin 4 → Vec2 := quad ⟨0, 0⟩ ⟨w, 0⟩ ⟨w, h⟩ ⟨0, h⟩

/-- Twice the signed area of the triangle `p q r`; it is zero exactly when the three
points are collinear. -/
def cross (p q r : Vec2) : ℚ :=
  (q.x - p.x) * (r.y - p.y) - (r.x - p.x) * (q.y - p.y)

/-- No three corners of the quad are collinear. -/
def NoThreeCollinear (q : Fin 4 → Vec2) : Prop :=
  cross (q 0) (q 1) (q 2) ≠ 0 ∧ cross (q 0) (q 1) (q 3) ≠ 0
  ∧ cross (q 0) (q 2) (q 3) ≠ 0 ∧ cross (q 1) (q 2) (q 3) ≠ 0

/-- A source quad whose first corner is not the origin. -/
def skewSource : Fin 4 → Vec2 := quad ⟨1, 0⟩ ⟨2, 1⟩ ⟨1, 2⟩ ⟨-1, 1⟩

/-- The image of `skewSource` under the projective map `(x, y) ↦ (1/x, y/x)`, which
sends the origin to infinity. -/
def skewDestination : Fin 4 → Vec2 := quad ⟨1, 0⟩ ⟨1 / 2, 1 / 2⟩ ⟨1, 2⟩ ⟨-1, -1⟩

/-! ## The warp object -/

/-- The members of the base class `Warp` that `WarpPerspective.cpp` uses.  The class is
declared in `Warp.h`, which is not part of the source; the types are those the uses in
`WarpPerspective.cpp` show: `mPoints` is indexed and has `size()`, `clear()` and
`push_back`, `mSelected` is compared with `mPoints.size()` and is `unsigned`,
`mWidth` and `mHeight` are cast to `float`, `mWindowSize` has `x` and `y`.
`isEditMode` is what `isEditModeEnabled()` returns. -/
structure WarpBase where
  mPoints : List Vec2
  mSelected : Nat
  mIsDirty : Bool
  mWidth : Int
  mHeight : Int
  mWindowSize : Vec2
  isEditMode : Bool

/-- A `WarpPerspective` object: the members of the base class and the four members
`mSource`, `mDestination`, `mTransform`, `mInverted` of the class itself. -/
structure Warp extends WarpBase where
  mSource : Fin 4 → Vec2
  mDestination : Fin 4 → Vec2
  mTransform : Mat4
  mInverted : Mat4

/-- The load `mPoints[i]`. -/
def pointAt (pts : List Vec2) (i : Nat) : Vec2 := pts.getD i ⟨0, 0⟩

/-- The call `std::swap( mPoints[i], mPoints[j] )`. -/
def swapPoints (pts : List Vec2) (i j : Nat) : List Vec2 :=
  (pts.set i (pointAt pts j)).set j (pointAt pts i)

/-- `WarpPerspective::reset()`. -/
def reset (w : Warp) : Warp :=
  { w with
    mPoints := [⟨0, 0⟩, ⟨1, 0⟩, ⟨1, 1⟩, ⟨0, 1⟩]
    mIsDirty := true }

/-- `WarpPerspective::WarpPerspective()`: `w` is the object as the constructor of the
base class leaves it; the eight components of `mSource` are assigned, then `reset()`
is called. -/
def construct (w : Warp) : Warp :=
  reset { w with
    mSource := ![⟨0, 0⟩, ⟨(w.mWidth : ℚ), 0⟩, ⟨(w.mWidth : ℚ), (w.mHeight : ℚ)⟩,
                 ⟨0, (w.mHeight : ℚ)⟩] }

/-- `WarpPerspective::getInvertedTransform()`: the matrix returned and the object
afterwards. -/
def getInvertedTransform (w : Warp) : Mat4 × Warp :=
  let w1 := if w.mIsDirty then { w with mInverted := inverse w.mTransform } else w
  (w1.mInverted, w1)

/-- The assignments to `mSource` in `getTransform` (lines 60-63). -/
def updateSource (s : Fin 4 → Vec2) (width height : Int) : Fin 4 → Vec2 :=
  let s := Function.update s 1 { s 1 with x := (width : ℚ) }
  let s := Function.update s 2 { s 2 with x := (width : ℚ) }
  let s := Function.update s 2 { s 2 with y := (height : ℚ) }
  Function.update s 3 { s 3 with y := (height : ℚ) }

/-- The assignments to `mDestination` in `getTransform` (lines 66-73). -/
def destinationOf (pts : List Vec2) (windowSize : Vec2) : Fin 4 → Vec2 :=
  ![⟨(pointAt pts 0).x * windowSize.x, (pointAt pts 0).y * windowSize.y⟩,
    ⟨(pointAt pts 1).x * windowSize.x, (pointAt pts 1).y * windowSize.y⟩,
    ⟨(pointAt pts 2).x * windowSize.x, (pointAt pts 2).y * windowSize.y⟩,
    ⟨(pointAt pts 3).x * windowSize.x, (pointAt pts 3).y * windowSize.y⟩]

/-- `WarpPerspective::getTransform()`: the matrix returned and the object afterwards. -/
def getTransform (w : Warp) : Mat4 × Warp :=
  if w.mIsDirty then
    let w1 := { w with mSource := updateSource w.mSource w.mWidth w.mHeight }
    let w2 := { w1 with mDestination := destinationOf w1.mPoints w1.mWindowSize }
    let w3 := { w2 with mTransform := getPerspectiveTransform w2.mSource w2.mDestination }
    let w4 := (getInvertedTransform w3).2
    let w5 := { w4 with mIsDirty := false }
    (w5.mTransform, w5)
  else (w.mTransform, w)

/-- The key codes `WarpPerspective::keyDown` tells apart; `other` is any other code. -/
inductive KeyCode where
  | KEY_F9
  | KEY_F10
  | KEY_F11
  | KEY_F12
  | other (code : Nat)
deriving DecidableEq

/-- A `KeyEvent`: `code` is `getCode()`, `handled` is `isHandled()`. -/
structure KeyEvent where
  code : KeyCode
  handled : Bool
deriving DecidableEq

/-- The modulus of `unsigned` arithmetic. -/
def UINT_RANGE : Nat := 4294967296

/-- `WarpPerspective::keyDown( KeyEvent &event )`: the object and the event afterwards.
`baseKeyDown` is `Warp::keyDown`, defined in a file that is not part of the source: it
acts on the members of the base class and on the event.  `mSelected` is `unsigned`:
its arithmetic is modulo `UINT_RANGE`. -/
def keyDown (baseKeyDown : WarpBase → KeyEvent → WarpBase × KeyEvent)
    (w : Warp) (event : KeyEvent) : Warp × KeyEvent :=
  let r := baseKeyDown w.toWarpBase event
  let w := { w with toWarpBase := r.1 }
  let event := r.2
  if event.handled then (w, event)
  else if !w.isEditMode then (w, event)
  else if w.mSelected ≥ w.mPoints.length then (w, event)
  else
    match event.code with
    | KeyCode.KEY_F9 =>
      let pts := swapPoints (swapPoints (swapPoints w.mPoints 1 2) 0 1) 3 0
      ({ w with
          mPoints := pts
          mSelected := (w.mSelected + 1) % UINT_RANGE % 4
          mIsDirty := true },
        { event with handled := true })
    | KeyCode.KEY_F10 =>
      let pts := swapPoints (swapPoints (swapPoints w.mPoints 3 0) 0 1) 1 2
      ({ w with
          mPoints := pts
          mSelected := (w.mSelected + 3) % UINT_RANGE % 4
          mIsDirty := true },
        { event with handled := true })
    | KeyCode.KEY_F11 =>
      let pts := swapPoints (swapPoints w.mPoints 0 1) 2 3
      let sel :=
        if w.mSelected % 2 ≠ 0 then (w.mSelected + UINT_RANGE - 1) % UINT_RANGE
        else (w.mSelected + 1) % UINT_RANGE
      ({ w with mPoints := pts, mSelected := sel, mIsDirty := true },
        { event with handled := true })
    | KeyCode.KEY_F12 =>
      let pts := swapPoints (swapPoints w.mPoints 0 3) 1 2
      let size := w.mPoints.length % UINT_RANGE
      let sel := ((size + UINT_RANGE - 1) % UINT_RANGE + UINT_RANGE - w.mSelected) % UINT_RANGE
      ({ w with mPoints := pts, mSelected := sel, mIsDirty := true },
        { event with handled := true })
    | KeyCode.other _ => (w, event)

/-- The base class does not react to the key `c`: `Warp::keyDown` leaves the object
alone and does not mark the event as handled. -/
def IgnoresKey (baseKeyDown : WarpBase → KeyEvent → WarpBase × KeyEvent) (c : KeyCode) : Prop :=
  ∀ b : WarpBase, baseKeyDown b ⟨c, false⟩ = (b, ⟨c, false⟩)

/-- A base class that reacts to no key at all. -/
def idleBase : WarpBase → KeyEvent → WarpBase × KeyEvent := fun b e => (b, e)

/-- The unit square, the control points `reset()` installs. -/
def unitSquare : List Vec2 := [⟨0, 0⟩, ⟨1, 0⟩, ⟨1, 1⟩, ⟨0, 1⟩]

/-- A sample object: four control points on the unit square, `sel` selected, edit mode
on, content 1×1 in a window 1×1, clean, both cached matrices the identity. -/
def sampleWarp (sel : Nat) : Warp :=
  { mPoints := unitSquare
    mSelected := sel
    mIsDirty := false
    mWidth := 1
    mHeight := 1
    mWindowSize := ⟨1, 1⟩
    isEditMode := true
    mSource := ![⟨0, 0⟩, ⟨1, 0⟩, ⟨1, 1⟩, ⟨0, 1⟩]
    mDestination := ![⟨0, 0⟩, ⟨1, 0⟩, ⟨1, 1⟩, ⟨0, 1⟩]
    mTransform := 1
    mInverted := 1 }

/-- Modelled from the spec: `Warp::keyDown` is defined in `Warp.cpp`, which is not part
of the source; this is the contract the spec states for every mutation ("any mutation
to ControlPoints, or external notification of changed viewport/content size, sets
DirtyFlag = true"): when `Warp::keyDown` changes the control points, the window size
or the content size, or touches the dirty flag, it leaves the dirty flag set. -/
def MarksDirty (baseKeyDown : WarpBase → KeyEvent → WarpBase × KeyEvent) : Prop :=
  ∀ (b : WarpBase) (e : KeyEvent),
    (baseKeyDown b e).1.mIsDirty = true
    ∨ ((baseKeyDown b e).1.mPoints = b.mPoints
        ∧ (baseKeyDown b e).1.mWindowSize = b.mWindowSize
        ∧ (baseKeyDown b e).1.mWidth = b.mWidth
        ∧ (baseKeyDown b e).1.mHeight = b.mHeight
        ∧ (baseKeyDown b e).1.mIsDirty = b.mIsDirty)

/-- The objects reachable from construction: by `reset`, by key presses, by a change
from outside of the members of the base class that sets the dirty flag (control
points, window size, content size, and whatever else comes with it), by a change of
the selection or of the edit mode alone, by `getTransform` and by
`getInvertedTransform`. -/
inductive Reachable (baseKeyDown : WarpBase → KeyEvent → WarpBase × KeyEvent) : Warp → Prop
  | construct (w : Warp) : Reachable baseKeyDown (construct w)
  | reset {w : Warp} : Reachable baseKeyDown w → Reachable baseKeyDown (reset w)
  | keyDown {w : Warp} (e : KeyEvent) :
      Reachable baseKeyDown w → Reachable baseKeyDown (keyDown baseKeyDown w e).1
  | change {w : Warp} (b : WarpBase) :
      b.mIsDirty = true → Reachable baseKeyDown w → Reachable baseKeyDown { w with toWarpBase := b }
  | select {w : Warp} (sel : Nat) (edit : Bool) :
      Reachable baseKeyDown w →
        Reachable baseKeyDown { w with mSelected := sel, isEditMode := edit }
  | getTransform {w : Warp} :
      Reachable baseKeyDown w → Reachable baseKeyDown (getTransform w).2
  | getInvertedTransform {w : Warp} :
      Reachable baseKeyDown w → Reachable baseKeyDown (getInvertedTransform w).2

/-- What the cache has to satisfy: the three components of `mSource` that are assigned
in the constructor only keep their values, and when the dirty flag is clear both cached
matrices belong to the current control points and sizes. -/
def CacheValid (w : Warp) : Prop :=
  w.mSource 0 = ⟨0, 0⟩ ∧ (w.mSource 1).y = 0 ∧ (w.mSource 3).x = 0
  ∧ (w.mIsDirty = false →
      w.mTransform = getPerspectiveTransform (rect (w.mWidth : ℚ) (w.mHeight : ℚ))
          (destinationOf w.mPoints w.mWindowSize)
      ∧ w.mInverted = inverse w.mTransform)

/-- The sample object after the window has been resized to 2×2 and the dirty flag set:
the cached matrices are still those of the 1×1 window. -/
def staleWarp : Warp :=
  { sampleWarp 0 with mWindowSize := ⟨2, 2⟩, mIsDirty := true }

/-! ## The solver, iteration by iteration -/

/-- Entry `p[k][8]` of the augmented matrix `p` of `getPerspectiveTransform` after the
call `gaussianElimination( &p[0][0], 9 )`. -/
def solved (src dst : Fin 4 → Vec2) (k : Nat) : ℚ :=
  rd (gaussianElimination (flat (initP src dst)) 9) (k * 9 + 8)

/-- The right-hand side of the system in the buffer: column 8. -/
def rhs (a : Buf) : Fin 8 → ℚ := fun r => rd a (r.val * 9 + 8)

/-- The pivot columns of the forward phase started at row `i` and column `j`: the
values of `j` in the iterations of the `while` loop that find a non-zero pivot, the
iterations in which a row is normalised and the column eliminated. The test
`a[maxi*n+j] != 0` is made on the exact rational value: a pivot that is non-zero here
and rounds to zero in `float` is a pivot of this list. -/
def pivotColumns (n m : Nat) (i j : Nat) (a : Buf) : List Nat :=
  if i < m ∧ j < n then
    let maxi := findPivot a n m i j
    if rd a (maxi * n + j) ≠ 0 then
      let a1 := if i ≠ maxi then swapRows a n i maxi else a
      let a_ij := rd a1 (i * n + j)
      let a2 := divideRow a1 n i a_ij
      let a3 := eliminateBelow a2 n m i j
      j :: pivotColumns n m (i + 1) (j + 1) a3
    else
      pivotColumns n m i (j + 1) a
  else []
termination_by n - j
decreasing_by all_goals omega

/-- The system `getPerspectiveTransform` builds when the four source corners are all
the origin (content of size 0×0) and the destination is the unit square. -/
def degenerateSystem : Buf := flat (initP (rect 0 0) (rect 1 1))

/-- The system `getPerspectiveTransform` builds for content of size 1×1 drawn on the
rectangle of size 2×3: a nonsingular one. -/
def sampleSystem : Buf := flat (initP (rect 1 1) (rect 2 3))

/-! ## The solver with every access checked -/

/-- The load `a[idx]`, refused when `idx` is outside the buffer. -/
def rdC (a : Buf) (idx : Nat) : Option ℚ :=
  if idx < a.size then some (rd a idx) else none

/-- The store `a[idx] = v`, refused when `idx` is outside the buffer. -/
def writeC (a : Buf) (idx : Nat) (v : ℚ) : Option Buf :=
  if idx < a.size then some (write a idx v) else none

/-- The division `x / y`, refused when `y` is zero. -/
def divC (x y : ℚ) : Option ℚ :=
  if y = 0 then none else some (x / y)

/-- The pivot search (lines 264-269) with checked loads. -/
def findPivotC (a : Buf) (n m i j : Nat) : Option Nat :=
  (List.range' (i + 1) (m - (i + 1))).foldlM
    (fun maxi k => do
      let x ← rdC a (k * n + j)
      let y ← rdC a (maxi * n + j)
      pure (if |x| > |y| then k else maxi)) i

/-- The row swap (lines 273-277) with checked loads and stores. -/
def swapRowsC (a : Buf) (n i maxi : Nat) : Option Buf :=
  (List.range n).foldlM
    (fun a k => do
      let aux ← rdC a (i * n + k)
      let v ← rdC a (maxi * n + k)
      let a1 ← writeC a (i * n + k) v
      writeC a1 (maxi * n + k) aux) a

/-- The normalisation (lines 280-282) with checked loads, stores and division. -/
def divideRowC (a : Buf) (n i : Nat) (a_ij : ℚ) : Option Buf :=
  (List.range n).foldlM
    (fun a k => do
      let x ← rdC a (i * n + k)
      let q ← divC x a_ij
      writeC a (i * n + k) q) a

/-- The inner loop of the elimination (lines 286-288) with checked loads and stores. -/
def eliminateRowC (a : Buf) (n i u : Nat) (a_uj : ℚ) : Option Buf :=
  (List.range n).foldlM
    (fun a k => do
      let x ← rdC a (u * n + k)
      let y ← rdC a (i * n + k)
      writeC a (u * n + k) (x - a_uj * y)) a

/-- The elimination below the pivot (lines 284-289) with checked loads and stores. -/
def eliminateBelowC (a : Buf) (n m i j : Nat) : Option Buf :=
  (List.range' (i + 1) (m - (i + 1))).foldlM
    (fun a u => do
      let a_uj ← rdC a (u * n + j)
      eliminateRowC a n i u a_uj) a

/-- The forward phase (lines 263-294) with every load, store and division checked. -/
def forwardLoopC (n m : Nat) (i j : Nat) (a : Buf) : Option Buf :=
  if i < m ∧ j < n then
    match findPivotC a n m i j with
    | none => none
    | some maxi =>
      match rdC a (maxi * n + j) with
      | none => none
      | some pivot =>
        if pivot ≠ 0 then
          match (if i ≠ maxi then swapRowsC a n i maxi else some a) with
          | none => none
          | some a1 =>
            match rdC a1 (i * n + j) with
            | none => none
            | some a_ij =>
              match divideRowC a1 n i a_ij with
              | none => none
              | some a2 =>
                match eliminateBelowC a2 n m i j with
                | none => none
                | some a3 => forwardLoopC n m (i + 1) (j + 1) a3
        else
          forwardLoopC n m i (j + 1) a
  else some a
termination_by n - j
decreasing_by all_goals omega

/-- The inner loop of the back-substitution (lines 297-299) with checked loads and
stores. -/
def backSubstituteRowC (a : Buf) (n m i : Nat) : Option Buf :=
  (List.range' (i + 1) (n - 1 - (i + 1))).foldlM
    (fun a j => do
      let x ← rdC a (i * n + m)
      let y ← rdC a (i * n + j)
      let z ← rdC a (j * n + m)
      writeC a (i * n + m) (x - y * z)) a

/-- The back-substitution (lines 296-300) with checked loads and stores. -/
def backSubstituteC (a : Buf) (n m : Nat) : Option Buf :=
  (List.range (m - 1)).reverse.foldlM (fun a i => backSubstituteRowC a n m i) a

/-- `gaussianElimination` with every load and store checked against the bounds of the
buffer and every division against a zero divisor: `none` as soon as one of them is
refused, the final buffer otherwise. -/
def gaussianEliminationC (a : Buf) (n : Nat) : Option Buf :=
  let m := n - 1
  match forwardLoopC n m 0 0 a with
  | none => none
  | some a1 => backSubstituteC a1 n m

/-! ## The loops of the solver, one by one -/

theorem size_write (a : Buf) (idx : Nat) (v : ℚ) : (write a idx v).size = a.size := by
  simp [write]

theorem rd_write (a : Buf) (idx : Nat) (v : ℚ) (h : idx < a.size) (t : Nat) :
    rd (write a idx v) t = if t = idx then v else rd a t := by
  unfold rd write
  simp only [Array.getD_eq_get?, Array.setD, h, dite_true]
  rw [Array.get?_set]
  by_cases ht : t = idx
  · subst ht
    simp
  · simp [ht, Ne.symm ht]

theorem divideLoop_spec (a : Buf) (b : Nat) (p : ℚ) (K : Nat) (hK : b + K ≤ a.size) :
    ((List.range K).foldl (fun a k => write a (b + k) (rd a (b + k) / p)) a).size = a.size
    ∧ ∀ t, rd ((List.range K).foldl (fun a k => write a (b + k) (rd a (b + k) / p)) a) t
        = if b ≤ t ∧ t < b + K then rd a t / p else rd a t := by
  induction K with
  | zero =>
    refine ⟨rfl, fun t => ?_⟩
    rw [if_neg (by omega)]
    rfl
  | succ K ih =>
    obtain ⟨hsz, hrd⟩ := ih (by omega)
    rw [List.range_succ, List.foldl_append, List.foldl_cons, List.foldl_nil]
    refine ⟨by rw [size_write, hsz], fun t => ?_⟩
    rw [rd_write _ _ _ (by omega), hrd, hrd]
    by_cases h1 : t = b + K
    · subst h1
      rw [if_pos rfl, if_neg (by omega), if_pos (by omega)]
    · rw [if_neg h1]
      by_cases h2 : b ≤ t ∧ t < b + K
      · rw [if_pos h2, if_pos (by omega)]
      · rw [if_neg h2, if_neg (by omega)]

theorem swapLoop_spec (a : Buf) (b1 b2 : Nat) (K : Nat) (h1 : b1 + K ≤ a.size)
    (h2 : b2 + K ≤ a.size) (hd : b1 + K ≤ b2 ∨ b2 + K ≤ b1) :
    ((List.range K).foldl (fun a k =>
        write (write a (b1 + k) (rd a (b2 + k))) (b2 + k) (rd a (b1 + k))) a).size = a.size
    ∧ ∀ t, rd ((List.range K).foldl (fun a k =>
        write (write a (b1 + k) (rd a (b2 + k))) (b2 + k) (rd a (b1 + k))) a) t
        = if b1 ≤ t ∧ t < b1 + K then rd a (t - b1 + b2)
          else if b2 ≤ t ∧ t < b2 + K then rd a (t - b2 + b1) else rd a t := by
  induction K with
  | zero =>
    refine ⟨rfl, fun t => ?_⟩
    rw [if_neg (by omega), if_neg (by omega)]
    rfl
  | succ K ih =>
    obtain ⟨hsz, hrd⟩ := ih (by omega) (by omega) (by omega)
    rw [List.range_succ, List.foldl_append, List.foldl_cons, List.foldl_nil]
    refine ⟨by simp only [size_write, hsz], fun t => ?_⟩
    rw [rd_write _ _ _ (by rw [size_write]; omega), rd_write _ _ _ (by omega), hrd, hrd, hrd]
    split_ifs <;> first | (exfalso; omega) | (subst_vars; with_reducible rfl) | (subst_vars; congr 1; omega)

theorem eliminateLoop_spec (a : Buf) (bu bi : Nat) (q : ℚ) (K : Nat) (h1 : bu + K ≤ a.size)
    (hd : bu + K ≤ bi ∨ bi + K ≤ bu) :
    ((List.range K).foldl (fun a k =>
        write a (bu + k) (rd a (bu + k) - q * rd a (bi + k))) a).size = a.size
    ∧ ∀ t, rd ((List.range K).foldl (fun a k =>
        write a (bu + k) (rd a (bu + k) - q * rd a (bi + k))) a) t
        = if bu ≤ t ∧ t < bu + K then rd a t - q * rd a (t - bu + bi) else rd a t := by
  induction K with
  | zero =>
    refine ⟨rfl, fun t => ?_⟩
    rw [if_neg (by omega)]
    rfl
  | succ K ih =>
    obtain ⟨hsz, hrd⟩ := ih (by omega) (by omega)
    rw [List.range_succ, List.foldl_append, List.foldl_cons, List.foldl_nil]
    refine ⟨by rw [size_write, hsz], fun t => ?_⟩
    rw [rd_write _ _ _ (by omega), hrd, hrd, hrd]
    split_ifs <;> first | (exfalso; omega) | (subst_vars; with_reducible rfl) | (subst_vars; congr 3; omega)

theorem swapRows_spec (a : Buf) (hsz : a.size = 72) (i k : Nat) (hi : i < 8) (hk : k < 8)
    (hik : i ≠ k) :
    (swapRows a 9 i k).size = 72
    ∧ ∀ x c, c < 9 → rd (swapRows a 9 i k) (x * 9 + c)
        = if x = i then rd a (k * 9 + c) else if x = k then rd a (i * 9 + c)
          else rd a (x * 9 + c) := by
  obtain ⟨h1, h2⟩ := swapLoop_spec a (i * 9) (k * 9) 9 (by omega) (by omega) (by omega)
  unfold swapRows
  simp only []
  refine ⟨h1.trans hsz, ?_⟩
  clear h1
  intro x c hc
  rw [h2]
  split_ifs <;> first | (exfalso; omega) | (subst_vars; with_reducible rfl) | (subst_vars; congr 1; omega)

theorem divideRow_spec (a : Buf) (hsz : a.size = 72) (i : Nat) (hi : i < 8) (p : ℚ) :
    (divideRow a 9 i p).size = 72
    ∧ ∀ x c, c < 9 → rd (divideRow a 9 i p) (x * 9 + c)
        = if x = i then rd a (i * 9 + c) / p else rd a (x * 9 + c) := by
  obtain ⟨h1, h2⟩ := divideLoop_spec a (i * 9) p 9 (by omega)
  unfold divideRow
  refine ⟨h1.trans hsz, ?_⟩
  clear h1
  intro x c hc
  rw [h2]
  split_ifs <;> first | (exfalso; omega) | (subst_vars; with_reducible rfl)

theorem eliminateRow_spec (a : Buf) (hsz : a.size = 72) (i u : Nat) (_ : i < 8) (hu : u < 8)
    (hiu : i ≠ u) (q : ℚ) :
    (eliminateRow a 9 i u q).size = 72
    ∧ ∀ x c, c < 9 → rd (eliminateRow a 9 i u q) (x * 9 + c)
        = if x = u then rd a (u * 9 + c) - q * rd a (i * 9 + c) else rd a (x * 9 + c) := by
  obtain ⟨h1, h2⟩ := eliminateLoop_spec a (u * 9) (i * 9) q 9 (by omega) (by omega)
  unfold eliminateRow
  refine ⟨h1.trans hsz, ?_⟩
  clear h1
  intro x c hc
  rw [h2]
  split_ifs <;> first | (exfalso; omega) | (subst_vars; with_reducible rfl) | (subst_vars; congr 3; omega)

theorem eliminateBelowLoop_spec (a : Buf) (hsz : a.size = 72) (i j : Nat) (hi : i < 8)
    (hj : j < 9) (U : Nat) (hU : i + U < 8) :
    ((List.range' (i + 1) U).foldl
        (fun a u => eliminateRow a 9 i u (rd a (u * 9 + j))) a).size = 72
    ∧ ∀ x c, c < 9 → rd ((List.range' (i + 1) U).foldl
        (fun a u => eliminateRow a 9 i u (rd a (u * 9 + j))) a) (x * 9 + c)
        = if i < x ∧ x < i + 1 + U then rd a (x * 9 + c) - rd a (x * 9 + j) * rd a (i * 9 + c)
          else rd a (x * 9 + c) := by
  induction U with
  | zero =>
    refine ⟨hsz, fun x c _ => ?_⟩
    rw [if_neg (by omega)]
    rfl
  | succ U ih =>
    obtain ⟨h1, h2⟩ := ih (by omega)
    rw [List.range'_concat, List.foldl_append, List.foldl_cons, List.foldl_nil]
    obtain ⟨h3, h4⟩ := eliminateRow_spec _ h1 i (i + 1 + 1 * U) hi (by omega) (by omega)
      (rd ((List.range' (i + 1) U).foldl
        (fun a u => eliminateRow a 9 i u (rd a (u * 9 + j))) a) ((i + 1 + 1 * U) * 9 + j))
    refine ⟨h3, ?_⟩
    clear h3 h1 ih
    intro x c hc
    rw [h4 x c hc, h2 x c hc, h2 _ c hc, h2 _ j hj, h2 i c hc]
    split_ifs <;> first | (exfalso; omega) | (subst_vars; with_reducible rfl)

theorem eliminateBelow_spec (a : Buf) (hsz : a.size = 72) (i j : Nat) (hi : i < 8)
    (hj : j < 9) :
    (eliminateBelow a 9 8 i j).size = 72
    ∧ ∀ x c, x < 8 → c < 9 → rd (eliminateBelow a 9 8 i j) (x * 9 + c)
        = if i < x then rd a (x * 9 + c) - rd a (x * 9 + j) * rd a (i * 9 + c)
          else rd a (x * 9 + c) := by
  obtain ⟨h1, h2⟩ := eliminateBelowLoop_spec a hsz i j hi hj (8 - (i + 1)) (by omega)
  unfold eliminateBelow
  refine ⟨h1, ?_⟩
  clear h1
  intro x c hx hc
  rw [h2 x c hc]
  split_ifs <;> first | (exfalso; omega) | (with_reducible rfl)

theorem findPivotLoop_spec (a : Buf) (i j : Nat) (U : Nat) :
    i ≤ (List.range' (i + 1) U).foldl
        (fun maxi k => if |rd a (k * 9 + j)| > |rd a (maxi * 9 + j)| then k else maxi) i
    ∧ (List.range' (i + 1) U).foldl
        (fun maxi k => if |rd a (k * 9 + j)| > |rd a (maxi * 9 + j)| then k else maxi) i
        < i + 1 + U
    ∧ ∀ x, i ≤ x → x < i + 1 + U → |rd a (x * 9 + j)|
        ≤ |rd a (((List.range' (i + 1) U).foldl
          (fun maxi k => if |rd a (k * 9 + j)| > |rd a (maxi * 9 + j)| then k else maxi) i)
            * 9 + j)| := by
  induction U with
  | zero =>
    refine ⟨le_refl _, by simp, fun x h1 h2 => ?_⟩
    have : x = i := by omega
    subst this
    simp
  | succ U ih =>
    obtain ⟨h1, h2, h3⟩ := ih
    rw [List.range'_concat, List.foldl_append, List.foldl_cons, List.foldl_nil]
    split_ifs with hgt
    · refine ⟨by omega, by omega, fun x hx1 hx2 => ?_⟩
      by_cases hx : x = i + 1 + 1 * U
      · rw [hx]
      · exact le_trans (h3 x hx1 (by omega)) (le_of_lt hgt)
    · refine ⟨h1, by omega, fun x hx1 hx2 => ?_⟩
      by_cases hx : x = i + 1 + 1 * U
      · rw [hx]
        exact not_lt.mp hgt
      · exact h3 x hx1 (by omega)

theorem findPivot_spec (a : Buf) (i j : Nat) (hi : i < 8) :
    i ≤ findPivot a 9 8 i j ∧ findPivot a 9 8 i j < 8
    ∧ ∀ x, i ≤ x → x < 8 → |rd a (x * 9 + j)| ≤ |rd a (findPivot a 9 8 i j * 9 + j)| := by
  obtain ⟨h1, h2, h3⟩ := findPivotLoop_spec a i j (8 - (i + 1))
  exact ⟨h1, by unfold findPivot; omega, fun x hx1 hx2 => h3 x hx1 (by omega)⟩

/-! ## One pivot step -/

theorem rowDot_congr (a b : Buf) (x y : Nat) (w : Nat → ℚ)
    (h : ∀ c, c < 9 → rd b (x * 9 + c) = rd a (y * 9 + c)) :
    rowDot b x w = rowDot a y w := by
  unfold rowDot
  exact Finset.sum_congr rfl fun c hc => by rw [h c (Finset.mem_range.mp hc)]

theorem rowDot_div (a b : Buf) (x y : Nat) (p : ℚ) (w : Nat → ℚ)
    (h : ∀ c, c < 9 → rd b (x * 9 + c) = rd a (y * 9 + c) / p) :
    rowDot b x w = rowDot a y w / p := by
  unfold rowDot
  rw [Finset.sum_div]
  exact Finset.sum_congr rfl fun c hc => by rw [h c (Finset.mem_range.mp hc)]; ring

theorem rowDot_sub (a b : Buf) (x y z : Nat) (q : ℚ) (w : Nat → ℚ)
    (h : ∀ c, c < 9 → rd b (x * 9 + c) = rd a (y * 9 + c) - q * rd a (z * 9 + c)) :
    rowDot b x w = rowDot a y w - q * rowDot a z w := by
  unfold rowDot
  rw [Finset.mul_sum, ← Finset.sum_sub_distrib]
  exact Finset.sum_congr rfl fun c hc => by rw [h c (Finset.mem_range.mp hc)]; ring

/-- The buffer after the swap of rows `i` and `k` as the code does it: no swap at all
when `i = k`. -/
theorem swapStep_spec (a : Buf) (hsz : a.size = 72) (i k : Nat) (hi : i < 8) (hk : k < 8) :
    (if i ≠ k then swapRows a 9 i k else a).size = 72
    ∧ ∀ x c, c < 9 → rd (if i ≠ k then swapRows a 9 i k else a) (x * 9 + c)
        = if x = i then rd a (k * 9 + c) else if x = k then rd a (i * 9 + c)
          else rd a (x * 9 + c) := by
  by_cases hik : i = k
  · subst hik
    rw [if_neg (by simp)]
    refine ⟨hsz, fun x c _ => ?_⟩
    split_ifs with h <;> first | rfl | (subst h; rfl)
  · rw [if_pos hik]
    exact swapRows_spec a hsz i k hi hk hik

/-- The whole pivot step on row `i`, column `j`, with pivot row `k`: the buffer after
the swap, the normalisation and the elimination, entry by entry. -/
theorem pivotStep_spec (a : Buf) (hsz : a.size = 72) (i j k : Nat) (hi : i < 8) (hj : j < 9)
    (hk : k < 8) (hik : i ≤ k) :
    (eliminateBelow (divideRow (if i ≠ k then swapRows a 9 i k else a) 9 i
        (rd (if i ≠ k then swapRows a 9 i k else a) (i * 9 + j))) 9 8 i j).size = 72
    ∧ ∀ x c, x < 8 → c < 9 →
      rd (eliminateBelow (divideRow (if i ≠ k then swapRows a 9 i k else a) 9 i
        (rd (if i ≠ k then swapRows a 9 i k else a) (i * 9 + j))) 9 8 i j) (x * 9 + c)
      = if x = i then rd a (k * 9 + c) / rd a (k * 9 + j)
        else if i < x then
          rd a ((if x = k then i else x) * 9 + c)
            - rd a ((if x = k then i else x) * 9 + j) * (rd a (k * 9 + c) / rd a (k * 9 + j))
        else rd a (x * 9 + c) := by
  obtain ⟨s1, e1⟩ := swapStep_spec a hsz i k hi hk
  generalize (if i ≠ k then swapRows a 9 i k else a) = a1 at s1 e1 ⊢
  obtain ⟨s2, e2⟩ := divideRow_spec a1 s1 i hi (rd a1 (i * 9 + j))
  generalize divideRow a1 9 i (rd a1 (i * 9 + j)) = a2 at s2 e2 ⊢
  obtain ⟨s3, e3⟩ := eliminateBelow_spec a2 s2 i j hi hj
  refine ⟨s3, ?_⟩
  clear s3 s2 s1
  intro x c hx hc
  rw [e3 x c hx hc]
  by_cases hxi : x = i
  · subst hxi
    rw [if_neg (lt_irrefl _), if_pos rfl, e2 x c hc, if_pos rfl, e1 x c hc, e1 x j hj,
      if_pos rfl, if_pos rfl]
  · rw [if_neg hxi]
    by_cases hlt : i < x
    · rw [if_pos hlt, if_pos hlt, e2 x c hc, e2 x j hj, e2 i c hc, if_neg hxi, if_neg hxi,
        if_pos rfl, e1 x c hc, e1 x j hj, e1 i c hc, e1 i j hj, if_neg hxi, if_neg hxi,
        if_pos rfl, if_pos rfl]
      by_cases hxk : x = k
      · rw [if_pos hxk, if_pos hxk, if_pos hxk]
      · rw [if_neg hxk, if_neg hxk, if_neg hxk]
    · rw [if_neg hlt, if_neg hlt, e2 x c hc, if_neg hxi, e1 x c hc, if_neg hxi]
      by_cases hxk : x = k
      · exfalso
        omega
      · rw [if_neg hxk]

/-- A pivot step with a non-zero pivot does not enlarge the null space: a vector
annihilated by every row afterwards was annihilated by every row before. -/
theorem pivotStep_null (a : Buf) (hsz : a.size = 72) (i j k : Nat) (hi : i < 8) (hj : j < 9)
    (hk : k < 8) (hik : i ≤ k) (hp : rd a (k * 9 + j) ≠ 0) (w : Nat → ℚ)
    (h : ∀ x, x < 8 →
      rowDot (eliminateBelow (divideRow (if i ≠ k then swapRows a 9 i k else a) 9 i
        (rd (if i ≠ k then swapRows a 9 i k else a) (i * 9 + j))) 9 8 i j) x w = 0) :
    ∀ x, x < 8 → rowDot a x w = 0 := by
  obtain ⟨-, e⟩ := pivotStep_spec a hsz i j k hi hj hk hik
  generalize (eliminateBelow (divideRow (if i ≠ k then swapRows a 9 i k else a) 9 i
        (rd (if i ≠ k then swapRows a 9 i k else a) (i * 9 + j))) 9 8 i j) = a3 at e h
  have hk0 : rowDot a k w = 0 := by
    have h1 := h i hi
    rw [rowDot_div a a3 i k (rd a (k * 9 + j)) w
      (fun c hc => by rw [e i c hi hc, if_pos rfl])] at h1
    rcases div_eq_zero_iff.mp h1 with h2 | h2
    · exact h2
    · exact absurd h2 hp
  have hbelow : ∀ x, x < 8 → i < x → rowDot a (if x = k then i else x) w = 0 := by
    intro x hx hlt
    have h1 := h x hx
    have h2 : rowDot a3 x w = rowDot a (if x = k then i else x) w
        - (rd a ((if x = k then i else x) * 9 + j) / rd a (k * 9 + j)) * rowDot a k w := by
      apply rowDot_sub
      intro c hc
      rw [e x c hx hc, if_neg (by omega), if_pos hlt]
      ring
    rw [h2, hk0, mul_zero, sub_zero] at h1
    exact h1
  intro x hx
  by_cases hxk : x = k
  · rw [hxk]
    exact hk0
  · rcases Nat.lt_trichotomy x i with hlt | heq | hgt
    · rw [← h x hx]
      exact (rowDot_congr a a3 x x w
        (fun c hc => by rw [e x c hx hc, if_neg (by omega), if_neg (by omega)])).symm
    · have h1 := hbelow k hk (by omega)
      rw [if_pos rfl] at h1
      rw [heq]
      exact h1
    · have h1 := hbelow x hx hgt
      rw [if_neg hxk] at h1
      exact h1

/-- A pivot step on the diagonal (row `i`, column `i`) with a non-zero pivot reduces
one more column. -/
theorem pivotStep_echelon (a : Buf) (hsz : a.size = 72) (i k : Nat) (hi : i < 8)
    (hk : k < 8) (hik : i ≤ k) (hp : rd a (k * 9 + i) ≠ 0) (he : Echelon a i) :
    Echelon (eliminateBelow (divideRow (if i ≠ k then swapRows a 9 i k else a) 9 i
        (rd (if i ≠ k then swapRows a 9 i k else a) (i * 9 + i))) 9 8 i i) (i + 1) := by
  obtain ⟨-, e⟩ := pivotStep_spec a hsz i i k hi (by omega) hk hik
  generalize (eliminateBelow (divideRow (if i ≠ k then swapRows a 9 i k else a) 9 i
        (rd (if i ≠ k then swapRows a 9 i k else a) (i * 9 + i))) 9 8 i i) = a3 at e
  obtain ⟨hd, hz⟩ := he
  constructor
  · intro c hc
    by_cases hci : c = i
    · subst hci
      rw [e c c hi (by omega), if_pos rfl]
      exact div_self hp
    · rw [e c c (by omega) (by omega), if_neg hci, if_neg (by omega)]
      exact hd c (by omega)
  · intro c x hc hcx hx
    rw [e x c hx (by omega)]
    by_cases hxi : x = i
    · rw [if_pos hxi, hz c k (by omega) (by omega) hk, zero_div]
    · rw [if_neg hxi]
      by_cases hlt : i < x
      · rw [if_pos hlt]
        by_cases hci : c = i
        · subst hci
          rw [div_self hp, mul_one, sub_self]
        · have h1 : rd a (k * 9 + c) = 0 := hz c k (by omega) (by omega) hk
          have h2 : rd a ((if x = k then i else x) * 9 + c) = 0 := by
            split_ifs
            · exact hz c i (by omega) (by omega) hi
            · exact hz c x (by omega) (by omega) hx
          rw [h1, h2, zero_div, mul_zero, sub_zero]
      · rw [if_neg hlt]
        exact hz c x (by omega) hcx hx

/-! ## Pivots of a nonsingular system -/

/-- A unit upper triangular system of size `k` has a solution for every right-hand
side `t`. -/
theorem tri_solve (a : Buf) (k : Nat) (hk : k ≤ 8) (he : Echelon a k) (t : Nat → ℚ) :
    ∃ v : Nat → ℚ, (∀ c, k ≤ c → v c = 0)
      ∧ ∀ x, x < k → ∑ c in Finset.range k, rd a (x * 9 + c) * v c = t x := by
  induction k generalizing t with
  | zero => exact ⟨fun _ => 0, fun _ _ => rfl, fun x hx => absurd hx (Nat.not_lt_zero x)⟩
  | succ k ih =>
    obtain ⟨hd, hz⟩ := he
    obtain ⟨v, hv0, hv⟩ := ih (by omega)
      ⟨fun c hc => hd c (by omega), fun c x hc hcx hx => hz c x (by omega) hcx hx⟩
      (fun x => t x - rd a (x * 9 + k) * t k)
    refine ⟨fun c => if c = k then t k else v c, fun c hc => ?_, fun x hx => ?_⟩
    · show (if c = k then t k else v c) = 0
      rw [if_neg (by omega)]
      exact hv0 c (by omega)
    · rw [Finset.sum_range_succ]
      beta_reduce
      have hsum : ∑ c in Finset.range k, rd a (x * 9 + c) * (if c = k then t k else v c)
          = ∑ c in Finset.range k, rd a (x * 9 + c) * v c :=
        Finset.sum_congr rfl fun c hc => by
          rw [if_neg (by have := Finset.mem_range.mp hc; omega)]
      rw [hsum, if_pos rfl]
      by_cases hxk : x = k
      · subst hxk
        rw [Finset.sum_eq_zero (fun c hc => by
          rw [hz c x (by have := Finset.mem_range.mp hc; omega) (Finset.mem_range.mp hc)
            (by omega), zero_mul]), hd x (by omega)]
        ring
      · rw [hv x (by omega)]
        ring

/-- When column `i` vanishes from row `i` downwards in a matrix whose first `i` columns
are reduced, a vector with `i`-th component 1 and last component 0 is annihilated by
every row. -/
theorem pivot_kernel (a : Buf) (i : Nat) (hi : i < 8) (he : Echelon a i)
    (h0 : ∀ x, i ≤ x → x < 8 → rd a (x * 9 + i) = 0) :
    ∃ w : Nat → ℚ, w i = 1 ∧ w 8 = 0 ∧ ∀ x, x < 8 → rowDot a x w = 0 := by
  obtain ⟨v, hv0, hv⟩ := tri_solve a i (by omega) he (fun x => - rd a (x * 9 + i))
  refine ⟨fun c => if c = i then 1 else v c, if_pos rfl, ?_, fun x hx => ?_⟩
  · show (if 8 = i then 1 else v 8) = 0
    rw [if_neg (by omega)]
    exact hv0 8 (by omega)
  · unfold rowDot
    rw [← Finset.sum_range_add_sum_Ico _ (show i ≤ 9 by omega),
      Finset.sum_eq_sum_Ico_succ_bot (show i < 9 by omega)]
    beta_reduce
    have htail : ∑ c in Finset.Ico (i + 1) 9, rd a (x * 9 + c) * (if c = i then 1 else v c)
        = 0 :=
      Finset.sum_eq_zero fun c hc => by
        have := Finset.mem_Ico.mp hc
        rw [if_neg (by omega), hv0 c (by omega), mul_zero]
    have hhead : ∑ c in Finset.range i, rd a (x * 9 + c) * (if c = i then 1 else v c)
        = ∑ c in Finset.range i, rd a (x * 9 + c) * v c :=
      Finset.sum_congr rfl fun c hc => by
        rw [if_neg (by have := Finset.mem_range.mp hc; omega)]
    rw [htail, hhead, if_pos rfl, add_zero, mul_one]
    by_cases hxi : x < i
    · rw [hv x hxi]
      ring
    · rw [Finset.sum_eq_zero (fun c hc => by
        rw [he.2 c x (Finset.mem_range.mp hc) (by have := Finset.mem_range.mp hc; omega) hx,
          zero_mul]), h0 x (by omega) hx]
      ring

/-- A system whose coefficient block is nonsingular has only the trivial solution of
its homogeneous part. -/
theorem kernel_trivial (a0 : Buf) (hns : (coeffBlock a0).det ≠ 0) (w : Nat → ℚ)
    (hw8 : w 8 = 0) (hw : ∀ x, x < 8 → rowDot a0 x w = 0) : ∀ c, c < 8 → w c = 0 := by
  have hmv : (coeffBlock a0).mulVec (fun c : Fin 8 => w c.val) = 0 := by
    funext r
    have h1 := hw r.val r.isLt
    unfold rowDot at h1
    rw [Finset.sum_range_succ, hw8, mul_zero, add_zero, Finset.sum_range] at h1
    simpa [Matrix.mulVec, Matrix.dotProduct, coeffBlock] using h1
  have hv := Matrix.eq_zero_of_mulVec_eq_zero hns hmv
  intro c hc
  exact congrFun hv ⟨c, hc⟩

/-- In a nonsingular system the pivot found on the diagonal is never zero. -/
theorem pivot_ne_zero (a0 a : Buf) (hns : (coeffBlock a0).det ≠ 0) (i : Nat) (hi : i < 8)
    (he : Echelon a i)
    (hnull : ∀ w : Nat → ℚ, (∀ x, x < 8 → rowDot a x w = 0) → ∀ x, x < 8 → rowDot a0 x w = 0) :
    rd a (findPivot a 9 8 i i * 9 + i) ≠ 0 := by
  intro hzero
  obtain ⟨-, -, hmax⟩ := findPivot_spec a i i hi
  have h0 : ∀ x, i ≤ x → x < 8 → rd a (x * 9 + i) = 0 := by
    intro x h1 h2
    have := hmax x h1 h2
    rw [hzero, abs_zero] at this
    exact abs_eq_zero.mp (le_antisymm this (abs_nonneg _))
  obtain ⟨w, hwi, hw8, hw⟩ := pivot_kernel a i hi he h0
  have := kernel_trivial a0 hns w hw8 (hnull w hw) i hi
  rw [hwi] at this
  exact one_ne_zero this

/-! ## The forward phase on a nonsingular system -/

theorem forwardLoop_spec (a0 : Buf) (hns : (coeffBlock a0).det ≠ 0) :
    ∀ (d i : Nat) (a : Buf), i + d = 8 → a.size = 72 → Echelon a i →
      (∀ w : Nat → ℚ, (∀ x, x < 8 → rowDot a x w = 0) → ∀ x, x < 8 → rowDot a0 x w = 0) →
      (forwardLoop 9 8 i i a).size = 72 ∧ Echelon (forwardLoop 9 8 i i a) 8
      ∧ ∀ w : Nat → ℚ, (∀ x, x < 8 → rowDot (forwardLoop 9 8 i i a) x w = 0) →
          ∀ x, x < 8 → rowDot a0 x w = 0 := by
  intro d
  induction d with
  | zero =>
    intro i a hid hsz he hnull
    have hi : i = 8 := by omega
    subst hi
    rw [forwardLoop, if_neg (by omega)]
    exact ⟨hsz, he, hnull⟩
  | succ d ih =>
    intro i a hid hsz he hnull
    have hi : i < 8 := by omega
    obtain ⟨hk1, hk2, -⟩ := findPivot_spec a i i hi
    have hp := pivot_ne_zero a0 a hns i hi he hnull
    rw [forwardLoop, if_pos ⟨hi, by omega⟩]
    simp only []
    rw [if_pos hp]
    apply ih (i + 1) _ (by omega)
    · exact (pivotStep_spec a hsz i i _ hi (by omega) hk2 hk1).1
    · exact pivotStep_echelon a hsz i _ hi hk2 hk1 hp he
    · intro w hw
      exact hnull w (pivotStep_null a hsz i i _ hi (by omega) hk2 hk1 hp w hw)

/-! ## Back-substitution -/

theorem backRowLoop_spec (a : Buf) (hsz : a.size = 72) (i : Nat) (U : Nat) (hU : i + U < 8) :
    ((List.range' (i + 1) U).foldl (fun a j =>
        write a (i * 9 + 8) (rd a (i * 9 + 8) - rd a (i * 9 + j) * rd a (j * 9 + 8))) a).size
      = 72
    ∧ ∀ t, rd ((List.range' (i + 1) U).foldl (fun a j =>
        write a (i * 9 + 8) (rd a (i * 9 + 8) - rd a (i * 9 + j) * rd a (j * 9 + 8))) a) t
      = if t = i * 9 + 8 then
          rd a (i * 9 + 8)
            - ∑ j in Finset.Ico (i + 1) (i + 1 + U), rd a (i * 9 + j) * rd a (j * 9 + 8)
        else rd a t := by
  induction U with
  | zero =>
    refine ⟨hsz, fun t => ?_⟩
    rw [Nat.add_zero, Finset.Ico_self, Finset.sum_empty, sub_zero, List.range'_zero,
      List.foldl_nil]
    split_ifs with h
    · rw [h]
    · rfl
  | succ U ih =>
    obtain ⟨h1, h2⟩ := ih (by omega)
    rw [List.range'_concat, List.foldl_append, List.foldl_cons, List.foldl_nil]
    refine ⟨by rw [size_write, h1], fun t => ?_⟩
    have e : i + 1 + 1 * U = i + 1 + U := by omega
    rw [rd_write _ _ _ (by omega), e]
    by_cases ht : t = i * 9 + 8
    · rw [if_pos ht, if_pos ht, h2 (i * 9 + 8), h2 (i * 9 + (i + 1 + U)),
        h2 ((i + 1 + U) * 9 + 8), if_pos rfl, if_neg (by omega), if_neg (by omega),
        show i + 1 + (U + 1) = i + 1 + U + 1 from rfl, Finset.sum_Ico_succ_top (by omega)]
      ring
    · rw [if_neg ht, if_neg ht, h2 t, if_neg ht]

theorem backSubstituteRow_spec (a : Buf) (hsz : a.size = 72) (i : Nat) (hi : i < 7) :
    (backSubstituteRow a 9 8 i).size = 72
    ∧ ∀ x c, c < 9 → rd (backSubstituteRow a 9 8 i) (x * 9 + c)
      = if x = i ∧ c = 8 then
          rd a (i * 9 + 8) - ∑ j in Finset.Ico (i + 1) 8, rd a (i * 9 + j) * rd a (j * 9 + 8)
        else rd a (x * 9 + c) := by
  obtain ⟨h1, h2⟩ := backRowLoop_spec a hsz i (9 - 1 - (i + 1)) (by omega)
  unfold backSubstituteRow
  refine ⟨h1, ?_⟩
  clear h1
  intro x c hc
  rw [h2, show i + 1 + (9 - 1 - (i + 1)) = 8 by omega]
  by_cases h : x = i ∧ c = 8
  · rw [if_pos h, if_pos (by omega)]
  · rw [if_neg h, if_neg (by omega)]

theorem backSubstituteLoop_spec (K : Nat) (hK : K ≤ 7) :
    ∀ a : Buf, a.size = 72 →
    ((List.range K).reverse.foldl (fun a i => backSubstituteRow a 9 8 i) a).size = 72
    ∧ (∀ x c, c < 9 → (c < 8 ∨ K ≤ x) →
        rd ((List.range K).reverse.foldl (fun a i => backSubstituteRow a 9 8 i) a) (x * 9 + c)
          = rd a (x * 9 + c))
    ∧ ∀ x, x < K →
        rd ((List.range K).reverse.foldl (fun a i => backSubstituteRow a 9 8 i) a) (x * 9 + 8)
          = rd a (x * 9 + 8) - ∑ j in Finset.Ico (x + 1) 8, rd a (x * 9 + j)
              * rd ((List.range K).reverse.foldl
                  (fun a i => backSubstituteRow a 9 8 i) a) (j * 9 + 8) := by
  induction K with
  | zero =>
    intro a hsz
    exact ⟨hsz, fun _ _ _ _ => rfl, fun x hx => absurd hx (Nat.not_lt_zero x)⟩
  | succ K ih =>
    intro a hsz
    obtain ⟨s1, e1⟩ := backSubstituteRow_spec a hsz K (by omega)
    obtain ⟨s2, e2, e3⟩ := ih (by omega) (backSubstituteRow a 9 8 K) s1
    rw [List.range_succ, List.reverse_append, List.reverse_singleton, List.singleton_append,
      List.foldl_cons]
    refine ⟨s2, ?_, ?_⟩
    · clear s1 s2
      intro x c hc h
      rw [e2 x c hc (by omega), e1 x c hc, if_neg (by omega)]
    · clear s1 s2
      intro x hx
      by_cases hxK : x = K
      · subst hxK
        rw [e2 x 8 (by omega) (by omega), e1 x 8 (by omega), if_pos ⟨rfl, rfl⟩]
        congr 1
        refine Finset.sum_congr rfl fun j hj => ?_
        have hj2 := Finset.mem_Ico.mp hj
        rw [e2 j 8 (by omega) (by omega), e1 j 8 (by omega), if_neg (by omega)]
      · rw [e3 x (by omega), e1 x 8 (by omega), if_neg (by omega)]
        congr 1
        refine Finset.sum_congr rfl fun j hj => ?_
        have hj2 := Finset.mem_Ico.mp hj
        rw [e1 x j (by omega), if_neg (by omega)]

/-- Back-substitution on a unit upper triangular system leaves in column 8 a solution
of that system. -/
theorem backSubstitute_solves (a : Buf) (hsz : a.size = 72) (he : Echelon a 8) :
    ∀ x, x < 8 →
      rowDot a x (fun c => if c = 8 then -1 else rd (backSubstitute a 9 8) (c * 9 + 8)) = 0 := by
  obtain ⟨-, e2, e3⟩ := backSubstituteLoop_spec 7 (le_refl _) a hsz
  have hR : ∀ x, x < 8 → rd (backSubstitute a 9 8) (x * 9 + 8)
      = rd a (x * 9 + 8) - ∑ j in Finset.Ico (x + 1) 8, rd a (x * 9 + j)
          * rd (backSubstitute a 9 8) (j * 9 + 8) := by
    intro x hx
    by_cases h7 : x = 7
    · subst h7
      have := e2 7 8 (by omega) (by omega)
      unfold backSubstitute
      rw [this]
      simp
    · exact e3 x (by omega)
  generalize backSubstitute a 9 8 = R at hR
  clear e2 e3
  intro x hx
  unfold rowDot
  rw [Finset.sum_range_succ, ← Finset.sum_range_add_sum_Ico _ (show x ≤ 8 by omega),
    Finset.sum_eq_sum_Ico_succ_bot (show x < 8 by omega)]
  beta_reduce
  have hhead : ∑ c in Finset.range x, rd a (x * 9 + c) * (if c = 8 then -1 else rd R (c * 9 + 8))
      = 0 :=
    Finset.sum_eq_zero fun c hc => by
      rw [he.2 c x (by have := Finset.mem_range.mp hc; omega) (Finset.mem_range.mp hc) hx,
        zero_mul]
  have htail : ∑ c in Finset.Ico (x + 1) 8,
        rd a (x * 9 + c) * (if c = 8 then -1 else rd R (c * 9 + 8))
      = ∑ c in Finset.Ico (x + 1) 8, rd a (x * 9 + c) * rd R (c * 9 + 8) :=
    Finset.sum_congr rfl fun c hc => by
      rw [if_neg (by have := Finset.mem_Ico.mp hc; omega)]
  rw [hhead, htail, if_neg (by omega), if_pos rfl, he.1 x hx, hR x hx]
  ring

/-- The solver is correct on a nonsingular system: when the coefficient block of the 8×9
buffer is nonsingular, the last column of the buffer returned by `gaussianElimination`
satisfies every equation of the system the buffer held on entry. -/
theorem gaussianElimination_solves (a0 : Buf) (hsz : a0.size = 72)
    (hns : (coeffBlock a0).det ≠ 0) :
    ∀ x, x < 8 →
      rowDot a0 x (fun c => if c = 8 then -1 else rd (gaussianElimination a0 9) (c * 9 + 8))
        = 0 := by
  obtain ⟨s, he, hnull⟩ := forwardLoop_spec a0 hns 8 0 a0 rfl hsz
    ⟨fun c hc => absurd hc (Nat.not_lt_zero c), fun c x hc => absurd hc (Nat.not_lt_zero c)⟩
    (fun w h => h)
  show ∀ x, x < 8 → rowDot a0 x (fun c => if c = 8 then -1
    else rd (backSubstitute (forwardLoop 9 8 0 0 a0) 9 8) (c * 9 + 8)) = 0
  exact hnull _ (backSubstitute_solves _ s he)

/-! ## The homography -/

theorem size_flat_initP (src dst : Fin 4 → Vec2) : (flat (initP src dst)).size = 72 := rfl

/-- Row `x` of the initial system applied to `w`, written out. -/
theorem rowDot_initP (src dst : Fin 4 → Vec2) (w : Nat → ℚ) (i : Fin 4) :
    rowDot (flat (initP src dst)) (2 * i.val) w
        = -(src i).x * w 0 - (src i).y * w 1 - w 2
          + (src i).x * (dst i).x * w 6 + (src i).y * (dst i).x * w 7 - (dst i).x * w 8
    ∧ rowDot (flat (initP src dst)) (2 * i.val + 1) w
        = -(src i).x * w 3 - (src i).y * w 4 - w 5
          + (src i).x * (dst i).y * w 6 + (src i).y * (dst i).y * w 7 - (dst i).y * w 8 := by
  fin_cases i <;>
    (simp [rowDot, Finset.sum_range_succ, rd, flat, initP]; constructor <;> ring)

/-- The eight coefficients returned by the solver satisfy the two projective equations
of every correspondence, when the system is nonsingular. -/
theorem solved_equations (src dst : Fin 4 → Vec2)
    (hns : (coeffBlock (flat (initP src dst))).det ≠ 0) (i : Fin 4) :
    rd (gaussianElimination (flat (initP src dst)) 9) (0 * 9 + 8) * (src i).x
        + rd (gaussianElimination (flat (initP src dst)) 9) (1 * 9 + 8) * (src i).y
        + rd (gaussianElimination (flat (initP src dst)) 9) (2 * 9 + 8)
      = (dst i).x * (rd (gaussianElimination (flat (initP src dst)) 9) (6 * 9 + 8) * (src i).x
        + rd (gaussianElimination (flat (initP src dst)) 9) (7 * 9 + 8) * (src i).y + 1)
    ∧ rd (gaussianElimination (flat (initP src dst)) 9) (3 * 9 + 8) * (src i).x
        + rd (gaussianElimination (flat (initP src dst)) 9) (4 * 9 + 8) * (src i).y
        + rd (gaussianElimination (flat (initP src dst)) 9) (5 * 9 + 8)
      = (dst i).y * (rd (gaussianElimination (flat (initP src dst)) 9) (6 * 9 + 8) * (src i).x
        + rd (gaussianElimination (flat (initP src dst)) 9) (7 * 9 + 8) * (src i).y + 1) := by
  have H := gaussianElimination_solves (flat (initP src dst)) (size_flat_initP src dst) hns
  obtain ⟨e1, e2⟩ := rowDot_initP src dst
    (fun c => if c = 8 then -1
      else rd (gaussianElimination (flat (initP src dst)) 9) (c * 9 + 8)) i
  have h1 := H (2 * i.val) (by omega)
  have h2 := H (2 * i.val + 1) (by omega)
  rw [e1] at h1
  rw [e2] at h2
  simp only [show (0 : ℕ) ≠ 8 by omega, show (1 : ℕ) ≠ 8 by omega, show (2 : ℕ) ≠ 8 by omega,
    show (3 : ℕ) ≠ 8 by omega, show (4 : ℕ) ≠ 8 by omega, show (5 : ℕ) ≠ 8 by omega,
    show (6 : ℕ) ≠ 8 by omega, show (7 : ℕ) ≠ 8 by omega, if_false, if_true] at h1 h2
  constructor
  · linear_combination -h1
  · linear_combination -h2

/-- The 4×4 matrix applied to a point in homogeneous coordinates, written out. -/
theorem mulVec_homogeneous (src dst : Fin 4 → Vec2) (p : Vec2) :
    (getPerspectiveTransform src dst).mulVec (homogeneous p)
      = ![rd (gaussianElimination (flat (initP src dst)) 9) (0 * 9 + 8) * p.x
            + rd (gaussianElimination (flat (initP src dst)) 9) (1 * 9 + 8) * p.y
            + rd (gaussianElimination (flat (initP src dst)) 9) (2 * 9 + 8),
          rd (gaussianElimination (flat (initP src dst)) 9) (3 * 9 + 8) * p.x
            + rd (gaussianElimination (flat (initP src dst)) 9) (4 * 9 + 8) * p.y
            + rd (gaussianElimination (flat (initP src dst)) 9) (5 * 9 + 8),
          0,
          rd (gaussianElimination (flat (initP src dst)) 9) (6 * 9 + 8) * p.x
            + rd (gaussianElimination (flat (initP src dst)) 9) (7 * 9 + 8) * p.y + 1] := by
  unfold getPerspectiveTransform
  simp only []
  generalize gaussianElimination (flat (initP src dst)) 9 = P
  funext j
  fin_cases j <;>
    simp [mat4, homogeneous, Matrix.mulVec, Matrix.dotProduct, Fin.sum_univ_four]

theorem weight_eq (src dst : Fin 4 → Vec2) (p : Vec2) :
    weight (getPerspectiveTransform src dst) p
      = rd (gaussianElimination (flat (initP src dst)) 9) (6 * 9 + 8) * p.x
          + rd (gaussianElimination (flat (initP src dst)) 9) (7 * 9 + 8) * p.y + 1 := by
  unfold getPerspectiveTransform
  simp only []
  generalize gaussianElimination (flat (initP src dst)) 9 = P
  simp [weight, mat4]

/-- A system is nonsingular as soon as its homogeneous part has only the trivial
solution. -/
theorem det_ne_zero_of_kernel (a0 : Buf)
    (h : ∀ v : Fin 8 → ℚ, (coeffBlock a0).mulVec v = 0 → v = 0) :
    (coeffBlock a0).det ≠ 0 := by
  intro hdet
  obtain ⟨v, hv, hmv⟩ := Matrix.exists_mulVec_eq_zero_iff.mpr hdet
  exact hv (h v hmv)

theorem rowDot_sub_vec (a : Buf) (x : Nat) (w1 w2 : Nat → ℚ) :
    rowDot a x (fun c => w1 c - w2 c) = rowDot a x w1 - rowDot a x w2 := by
  unfold rowDot
  rw [← Finset.sum_sub_distrib]
  exact Finset.sum_congr rfl fun c _ => by ring

/-- The eight rows of the initial system are the two equations of each of the four
correspondences. -/
theorem rows_initP (P : Nat → Prop) (h : ∀ i : Fin 4, P (2 * i.val) ∧ P (2 * i.val + 1)) :
    ∀ x, x < 8 → P x := by
  intro x hx
  have h0 := h 0
  have h1 := h 1
  have h2 := h 2
  have h3 := h 3
  interval_cases x
  · exact h0.1
  · exact h0.2
  · exact h1.1
  · exact h1.2
  · exact h2.1
  · exact h2.2
  · exact h3.1
  · exact h3.2

/-- On a nonsingular system the matrix returned is the one built from any eight
coefficients that satisfy the projective equations of the four correspondences. -/
theorem getPerspectiveTransform_unique (src dst : Fin 4 → Vec2)
    (hns : (coeffBlock (flat (initP src dst))).det ≠ 0)
    (h11 h12 h13 h21 h22 h23 h31 h32 : ℚ)
    (hsol : ∀ i : Fin 4,
      h11 * (src i).x + h12 * (src i).y + h13 = (dst i).x * (h31 * (src i).x + h32 * (src i).y + 1)
      ∧ h21 * (src i).x + h22 * (src i).y + h23
          = (dst i).y * (h31 * (src i).x + h32 * (src i).y + 1)) :
    getPerspectiveTransform src dst
      = mat4 h11 h21 0 h31 h12 h22 0 h32 0 0 1 0 h13 h23 0 1 := by
  have H := gaussianElimination_solves (flat (initP src dst)) (size_flat_initP src dst) hns
  have K := kernel_trivial (flat (initP src dst)) hns
    (fun c => (if c = 8 then -1
        else rd (gaussianElimination (flat (initP src dst)) 9) (c * 9 + 8))
      - (if c = 8 then -1 else if c = 0 then h11 else if c = 1 then h12 else if c = 2 then h13
          else if c = 3 then h21 else if c = 4 then h22 else if c = 5 then h23
          else if c = 6 then h31 else h32))
    (by simp)
    (by
      intro x hx
      rw [rowDot_sub_vec, H x hx, zero_sub, neg_eq_zero]
      revert x
      apply rows_initP
      intro i
      obtain ⟨e1, e2⟩ := rowDot_initP src dst
        (fun c => if c = 8 then -1 else if c = 0 then h11 else if c = 1 then h12
          else if c = 2 then h13 else if c = 3 then h21 else if c = 4 then h22
          else if c = 5 then h23 else if c = 6 then h31 else h32) i
      rw [e1, e2]
      simp only [show (0 : ℕ) ≠ 8 by omega, show (1 : ℕ) ≠ 8 by omega,
        show (2 : ℕ) ≠ 8 by omega, show (3 : ℕ) ≠ 8 by omega, show (4 : ℕ) ≠ 8 by omega,
        show (5 : ℕ) ≠ 8 by omega, show (6 : ℕ) ≠ 8 by omega, show (7 : ℕ) ≠ 8 by omega,
        show (1 : ℕ) ≠ 0 by omega, show (2 : ℕ) ≠ 0 by omega, show (3 : ℕ) ≠ 0 by omega,
        show (4 : ℕ) ≠ 0 by omega, show (5 : ℕ) ≠ 0 by omega, show (6 : ℕ) ≠ 0 by omega,
        show (7 : ℕ) ≠ 0 by omega, show (2 : ℕ) ≠ 1 by omega, show (3 : ℕ) ≠ 1 by omega,
        show (4 : ℕ) ≠ 1 by omega, show (5 : ℕ) ≠ 1 by omega, show (6 : ℕ) ≠ 1 by omega,
        show (7 : ℕ) ≠ 1 by omega, show (3 : ℕ) ≠ 2 by omega, show (4 : ℕ) ≠ 2 by omega,
        show (5 : ℕ) ≠ 2 by omega, show (6 : ℕ) ≠ 2 by omega, show (7 : ℕ) ≠ 2 by omega,
        show (4 : ℕ) ≠ 3 by omega, show (5 : ℕ) ≠ 3 by omega, show (6 : ℕ) ≠ 3 by omega,
        show (7 : ℕ) ≠ 3 by omega, show (5 : ℕ) ≠ 4 by omega, show (6 : ℕ) ≠ 4 by omega,
        show (7 : ℕ) ≠ 4 by omega, show (6 : ℕ) ≠ 5 by omega, show (7 : ℕ) ≠ 5 by omega,
        show (7 : ℕ) ≠ 6 by omega, if_false, if_true]
      obtain ⟨s1, s2⟩ := hsol i
      constructor
      · linear_combination -s1
      · linear_combination -s2)
  have k0 := K 0 (by omega)
  have k1 := K 1 (by omega)
  have k2 := K 2 (by omega)
  have k3 := K 3 (by omega)
  have k4 := K 4 (by omega)
  have k5 := K 5 (by omega)
  have k6 := K 6 (by omega)
  have k7 := K 7 (by omega)
  simp only [show (0 : ℕ) ≠ 8 by omega, show (1 : ℕ) ≠ 8 by omega,
        show (2 : ℕ) ≠ 8 by omega, show (3 : ℕ) ≠ 8 by omega, show (4 : ℕ) ≠ 8 by omega,
        show (5 : ℕ) ≠ 8 by omega, show (6 : ℕ) ≠ 8 by omega, show (7 : ℕ) ≠ 8 by omega,
        show (1 : ℕ) ≠ 0 by omega, show (2 : ℕ) ≠ 0 by omega, show (3 : ℕ) ≠ 0 by omega,
        show (4 : ℕ) ≠ 0 by omega, show (5 : ℕ) ≠ 0 by omega, show (6 : ℕ) ≠ 0 by omega,
        show (7 : ℕ) ≠ 0 by omega, show (2 : ℕ) ≠ 1 by omega, show (3 : ℕ) ≠ 1 by omega,
        show (4 : ℕ) ≠ 1 by omega, show (5 : ℕ) ≠ 1 by omega, show (6 : ℕ) ≠ 1 by omega,
        show (7 : ℕ) ≠ 1 by omega, show (3 : ℕ) ≠ 2 by omega, show (4 : ℕ) ≠ 2 by omega,
        show (5 : ℕ) ≠ 2 by omega, show (6 : ℕ) ≠ 2 by omega, show (7 : ℕ) ≠ 2 by omega,
        show (4 : ℕ) ≠ 3 by omega, show (5 : ℕ) ≠ 3 by omega, show (6 : ℕ) ≠ 3 by omega,
        show (7 : ℕ) ≠ 3 by omega, show (5 : ℕ) ≠ 4 by omega, show (6 : ℕ) ≠ 4 by omega,
        show (7 : ℕ) ≠ 4 by omega, show (6 : ℕ) ≠ 5 by omega, show (7 : ℕ) ≠ 5 by omega,
        show (7 : ℕ) ≠ 6 by omega, if_false, if_true, sub_eq_zero] at k0 k1 k2 k3 k4 k5 k6 k7
  unfold getPerspectiveTransform
  simp only []
  rw [k0, k1, k2, k3, k4, k5, k6, k7]

/-- A system is nonsingular as soon as the only vector with last component 0 that every
row annihilates is zero in its first eight components. -/
theorem det_ne_zero_of_rowDot (a0 : Buf)
    (h : ∀ w : Nat → ℚ, w 8 = 0 → (∀ x, x < 8 → rowDot a0 x w = 0) → ∀ c, c < 8 → w c = 0) :
    (coeffBlock a0).det ≠ 0 := by
  apply det_ne_zero_of_kernel
  intro v hv
  have hw := h (fun c => if hc : c < 8 then v ⟨c, hc⟩ else 0) (by simp) (by
    intro x hx
    have h1 := congrFun hv ⟨x, hx⟩
    unfold rowDot
    rw [Finset.sum_range_succ, Finset.sum_range]
    simp only [Matrix.mulVec, Matrix.dotProduct, coeffBlock, Matrix.of_apply, Pi.zero_apply]
      at h1
    simp only [Fin.is_lt, dite_true, Fin.eta, show ¬ (8 < 8) by omega, dite_false, mul_zero,
      add_zero]
    exact h1)
  funext c
  have := hw c.val c.isLt
  simpa using this

/-- The system of a rectangle-to-rectangle correspondence is nonsingular when no side
of either rectangle is zero. -/
theorem det_rect (W H A B : ℚ) (hW : W ≠ 0) (hH : H ≠ 0) (hA : A ≠ 0) (hB : B ≠ 0) :
    (coeffBlock (flat (initP (rect W H) (rect A B)))).det ≠ 0 := by
  apply det_ne_zero_of_rowDot
  intro w hw8 hw
  obtain ⟨e0, e1⟩ := rowDot_initP (rect W H) (rect A B) w 0
  obtain ⟨e2, e3⟩ := rowDot_initP (rect W H) (rect A B) w 1
  obtain ⟨e4, e5⟩ := rowDot_initP (rect W H) (rect A B) w 2
  obtain ⟨e6, e7⟩ := rowDot_initP (rect W H) (rect A B) w 3
  have r0 := hw 0 (by omega)
  have r1 := hw 1 (by omega)
  have r2 := hw 2 (by omega)
  have r3 := hw 3 (by omega)
  have r4 := hw 4 (by omega)
  have r5 := hw 5 (by omega)
  have r6 := hw 6 (by omega)
  have r7 := hw 7 (by omega)
  simp only [Fin.val_zero, Fin.val_one, Fin.val_two, show ((3 : Fin 4) : ℕ) = 3 from rfl,
    Nat.mul_zero, Nat.mul_one, Nat.zero_add, Nat.reduceMul, Nat.reduceAdd] at e0 e1 e2 e3 e4 e5 e6 e7
  rw [e0] at r0
  rw [e1] at r1
  rw [e2] at r2
  rw [e3] at r3
  rw [e4] at r4
  rw [e5] at r5
  rw [e6] at r6
  rw [e7] at r7
  simp [rect, quad, hw8] at r0 r1 r2 r3 r4 r5 r6 r7
  clear e0 e1 e2 e3 e4 e5 e6 e7 hw
  have w3 : w 3 = 0 := (mul_eq_zero.mp (show W * w 3 = 0 by linarith)).resolve_left hW
  have w1 : w 1 = 0 := (mul_eq_zero.mp (show H * w 1 = 0 by linarith)).resolve_left hH
  have w7 : w 7 = 0 := by
    have h1 : (H * A) * w 7 = 0 := by linarith
    exact (mul_eq_zero.mp h1).resolve_left (mul_ne_zero hH hA)
  have w4 : w 4 = 0 := by
    have h1 : H * w 4 = 0 := by rw [w7] at r7; linarith
    exact (mul_eq_zero.mp h1).resolve_left hH
  have w6 : w 6 = 0 := by
    have h1 : (W * B) * w 6 = 0 := by rw [w7, w4, w3] at r5; linarith
    exact (mul_eq_zero.mp h1).resolve_left (mul_ne_zero hW hB)
  have w0 : w 0 = 0 := by
    have h1 : W * w 0 = 0 := by rw [w6] at r2; linarith
    exact (mul_eq_zero.mp h1).resolve_left hW
  intro c hc
  interval_cases c <;> assumption

/-- A rectangle is mapped onto a rectangle by a pure scale: for the source rectangle
`[(0,0), (W,0), (W,H), (0,H)]` and the destination rectangle `[(0,0), (A,0), (A,B), (0,B)]`
with no side zero, the matrix returned has diagonal `(A/W, B/H, 1, 1)` and zeros
elsewhere. -/
theorem getPerspectiveTransform_rect (W H A B : ℚ) (hW : W ≠ 0) (hH : H ≠ 0) (hA : A ≠ 0)
    (hB : B ≠ 0) :
    getPerspectiveTransform (rect W H) (rect A B)
      = mat4 (A / W) 0 0 0 0 (B / H) 0 0 0 0 1 0 0 0 0 1 := by
  apply getPerspectiveTransform_unique (rect W H) (rect A B) (det_rect W H A B hW hH hA hB)
  intro i
  fin_cases i <;> simp [rect, quad] <;> field_simp

theorem mat4_one : mat4 1 0 0 0 0 1 0 0 0 0 1 0 0 0 0 1 = 1 := by
  ext i j
  fin_cases i <;> fin_cases j <;> rfl

theorem inverse_one : inverse 1 = 1 := by
  simp [inverse]

theorem mul_inverse (M : Mat4) (h : M.det ≠ 0) : M * inverse M = 1 := by
  unfold inverse
  rw [Matrix.mul_smul, Matrix.mul_adjugate, smul_smul, inv_mul_cancel₀ h, one_smul]

theorem inverse_mul (M : Mat4) (h : M.det ≠ 0) : inverse M * M = 1 := by
  unfold inverse
  rw [Matrix.smul_mul, Matrix.adjugate_mul, smul_smul, inv_mul_cancel₀ h, one_smul]

/-- The determinant of a matrix of the shape `getPerspectiveTransform` returns. -/
theorem det_mat4 (h11 h12 h13 h21 h22 h23 h31 h32 : ℚ) :
    (mat4 h11 h21 0 h31 h12 h22 0 h32 0 0 1 0 h13 h23 0 1).det
      = h11 * (h22 - h23 * h32) - h12 * (h21 - h23 * h31) + h13 * (h21 * h32 - h22 * h31) := by
  rw [Matrix.det_succ_row_zero]
  simp +decide [Fin.sum_univ_four, Matrix.det_fin_three, Matrix.submatrix, mat4, Fin.succAbove,
    show (Fin.castSucc (2 : Fin 3) : Fin 4) = 2 from rfl,
    show (Fin.succ (2 : Fin 3) : Fin 4) = 3 from rfl,
    show ((3 : Fin 4) : ℕ) = 3 from rfl]
  ring


/-- On a nonsingular system the matrix returned sends the source corner `i`, in
homogeneous coordinates, to its weight times the destination corner. -/
theorem mulVec_corner (src dst : Fin 4 → Vec2)
    (hns : (coeffBlock (flat (initP src dst))).det ≠ 0) (i : Fin 4) :
    (getPerspectiveTransform src dst).mulVec (homogeneous (src i))
      = ![weight (getPerspectiveTransform src dst) (src i) * (dst i).x,
          weight (getPerspectiveTransform src dst) (src i) * (dst i).y,
          0,
          weight (getPerspectiveTransform src dst) (src i)] := by
  obtain ⟨e1, e2⟩ := solved_equations src dst hns i
  rw [mulVec_homogeneous, weight_eq, e1, e2, mul_comm (dst i).x, mul_comm (dst i).y]

/-! ## Invertibility of the homography -/

/-- The algebra behind invertibility: eight coefficients that satisfy the projective
equations of four correspondences between two quads without three collinear corners
give every source corner a non-zero weight, and the 3×3 homography a non-zero
determinant. -/
theorem homography_nondegenerate (h11 h12 h13 h21 h22 h23 h31 h32 : ℚ)
    (x0 y0 x1 y1 x2 y2 x3 y3 X0 Y0 X1 Y1 X2 Y2 X3 Y3 : ℚ)
    (s012 : (x1 - x0) * (y2 - y0) - (x2 - x0) * (y1 - y0) ≠ 0)
    (s013 : (x1 - x0) * (y3 - y0) - (x3 - x0) * (y1 - y0) ≠ 0)
    (s023 : (x2 - x0) * (y3 - y0) - (x3 - x0) * (y2 - y0) ≠ 0)
    (s123 : (x2 - x1) * (y3 - y1) - (x3 - x1) * (y2 - y1) ≠ 0)
    (d012 : (X1 - X0) * (Y2 - Y0) - (X2 - X0) * (Y1 - Y0) ≠ 0)
    (d013 : (X1 - X0) * (Y3 - Y0) - (X3 - X0) * (Y1 - Y0) ≠ 0)
    (d023 : (X2 - X0) * (Y3 - Y0) - (X3 - X0) * (Y2 - Y0) ≠ 0)
    (d123 : (X2 - X1) * (Y3 - Y1) - (X3 - X1) * (Y2 - Y1) ≠ 0)
    (e0x : h11 * x0 + h12 * y0 + h13 = X0 * (h31 * x0 + h32 * y0 + 1))
    (e0y : h21 * x0 + h22 * y0 + h23 = Y0 * (h31 * x0 + h32 * y0 + 1))
    (e1x : h11 * x1 + h12 * y1 + h13 = X1 * (h31 * x1 + h32 * y1 + 1))
    (e1y : h21 * x1 + h22 * y1 + h23 = Y1 * (h31 * x1 + h32 * y1 + 1))
    (e2x : h11 * x2 + h12 * y2 + h13 = X2 * (h31 * x2 + h32 * y2 + 1))
    (e2y : h21 * x2 + h22 * y2 + h23 = Y2 * (h31 * x2 + h32 * y2 + 1))
    (e3x : h11 * x3 + h12 * y3 + h13 = X3 * (h31 * x3 + h32 * y3 + 1))
    (e3y : h21 * x3 + h22 * y3 + h23 = Y3 * (h31 * x3 + h32 * y3 + 1)) :
    (h31 * x0 + h32 * y0 + 1 ≠ 0 ∧ h31 * x1 + h32 * y1 + 1 ≠ 0
      ∧ h31 * x2 + h32 * y2 + 1 ≠ 0 ∧ h31 * x3 + h32 * y3 + 1 ≠ 0)
    ∧ h11 * (h22 - h23 * h32) - h12 * (h21 - h23 * h31) + h13 * (h21 * h32 - h22 * h31) ≠ 0 := by
  -- the weights
  obtain ⟨w0, hw0⟩ : ∃ w, w = h31 * x0 + h32 * y0 + 1 := ⟨_, rfl⟩
  obtain ⟨w1, hw1⟩ : ∃ w, w = h31 * x1 + h32 * y1 + 1 := ⟨_, rfl⟩
  obtain ⟨w2, hw2⟩ : ∃ w, w = h31 * x2 + h32 * y2 + 1 := ⟨_, rfl⟩
  obtain ⟨w3, hw3⟩ : ∃ w, w = h31 * x3 + h32 * y3 + 1 := ⟨_, rfl⟩
  rw [← hw0] at e0x e0y
  rw [← hw1] at e1x e1y
  rw [← hw2] at e2x e2y
  rw [← hw3] at e3x e3y
  rw [← hw0, ← hw1, ← hw2, ← hw3]
  -- the linear relation between the four source corners, pushed through the map
  have FX : ((x2 - x1) * (y3 - y1) - (x3 - x1) * (y2 - y1)) * w0 * X0
      - ((x2 - x0) * (y3 - y0) - (x3 - x0) * (y2 - y0)) * w1 * X1
      + ((x1 - x0) * (y3 - y0) - (x3 - x0) * (y1 - y0)) * w2 * X2
      - ((x1 - x0) * (y2 - y0) - (x2 - x0) * (y1 - y0)) * w3 * X3 = 0 := by
    linear_combination
      (-((x2 - x1) * (y3 - y1) - (x3 - x1) * (y2 - y1))) * e0x
      + ((x2 - x0) * (y3 - y0) - (x3 - x0) * (y2 - y0)) * e1x
      - ((x1 - x0) * (y3 - y0) - (x3 - x0) * (y1 - y0)) * e2x
      + ((x1 - x0) * (y2 - y0) - (x2 - x0) * (y1 - y0)) * e3x
  have FY : ((x2 - x1) * (y3 - y1) - (x3 - x1) * (y2 - y1)) * w0 * Y0
      - ((x2 - x0) * (y3 - y0) - (x3 - x0) * (y2 - y0)) * w1 * Y1
      + ((x1 - x0) * (y3 - y0) - (x3 - x0) * (y1 - y0)) * w2 * Y2
      - ((x1 - x0) * (y2 - y0) - (x2 - x0) * (y1 - y0)) * w3 * Y3 = 0 := by
    linear_combination
      (-((x2 - x1) * (y3 - y1) - (x3 - x1) * (y2 - y1))) * e0y
      + ((x2 - x0) * (y3 - y0) - (x3 - x0) * (y2 - y0)) * e1y
      - ((x1 - x0) * (y3 - y0) - (x3 - x0) * (y1 - y0)) * e2y
      + ((x1 - x0) * (y2 - y0) - (x2 - x0) * (y1 - y0)) * e3y
  have F1 : ((x2 - x1) * (y3 - y1) - (x3 - x1) * (y2 - y1)) * w0
      - ((x2 - x0) * (y3 - y0) - (x3 - x0) * (y2 - y0)) * w1
      + ((x1 - x0) * (y3 - y0) - (x3 - x0) * (y1 - y0)) * w2
      - ((x1 - x0) * (y2 - y0) - (x2 - x0) * (y1 - y0)) * w3 = 0 := by
    rw [hw0, hw1, hw2, hw3]
    ring
  -- the same relation with two destination corners eliminated
  have K01 : ((x2 - x1) * (y3 - y1) - (x3 - x1) * (y2 - y1)) * w0
        * ((X2 - X0) * (Y3 - Y0) - (X3 - X0) * (Y2 - Y0))
      = ((x2 - x0) * (y3 - y0) - (x3 - x0) * (y2 - y0)) * w1
        * ((X2 - X1) * (Y3 - Y1) - (X3 - X1) * (Y2 - Y1)) := by
    linear_combination (Y2 - Y3) * FX + (X3 - X2) * FY + (X2 * Y3 - X3 * Y2) * F1
  have K12 : ((x2 - x0) * (y3 - y0) - (x3 - x0) * (y2 - y0)) * w1
        * ((X1 - X0) * (Y3 - Y0) - (X3 - X0) * (Y1 - Y0))
      = ((x1 - x0) * (y3 - y0) - (x3 - x0) * (y1 - y0)) * w2
        * ((X2 - X0) * (Y3 - Y0) - (X3 - X0) * (Y2 - Y0)) := by
    linear_combination (Y0 - Y3) * FX + (X3 - X0) * FY + (X0 * Y3 - X3 * Y0) * F1
  have K23 : ((x1 - x0) * (y3 - y0) - (x3 - x0) * (y1 - y0)) * w2
        * ((X1 - X0) * (Y2 - Y0) - (X2 - X0) * (Y1 - Y0))
      = ((x1 - x0) * (y2 - y0) - (x2 - x0) * (y1 - y0)) * w3
        * ((X1 - X0) * (Y3 - Y0) - (X3 - X0) * (Y1 - Y0)) := by
    linear_combination (Y0 - Y1) * FX + (X1 - X0) * FY + (X0 * Y1 - X1 * Y0) * F1
  -- the weights vanish together or not at all
  have z01 : w0 = 0 ↔ w1 = 0 := by
    constructor
    · intro h
      rw [h, mul_zero, zero_mul] at K01
      rcases mul_eq_zero.mp K01.symm with h1 | h1
      · rcases mul_eq_zero.mp h1 with h2 | h2
        · exact absurd h2 s023
        · exact h2
      · exact absurd h1 d123
    · intro h
      rw [h, mul_zero, zero_mul] at K01
      rcases mul_eq_zero.mp K01 with h1 | h1
      · rcases mul_eq_zero.mp h1 with h2 | h2
        · exact absurd h2 s123
        · exact h2
      · exact absurd h1 d023
  have z12 : w1 = 0 ↔ w2 = 0 := by
    constructor
    · intro h
      rw [h, mul_zero, zero_mul] at K12
      rcases mul_eq_zero.mp K12.symm with h1 | h1
      · rcases mul_eq_zero.mp h1 with h2 | h2
        · exact absurd h2 s013
        · exact h2
      · exact absurd h1 d023
    · intro h
      rw [h, mul_zero, zero_mul] at K12
      rcases mul_eq_zero.mp K12 with h1 | h1
      · rcases mul_eq_zero.mp h1 with h2 | h2
        · exact absurd h2 s023
        · exact h2
      · exact absurd h1 d013
  have z23 : w2 = 0 ↔ w3 = 0 := by
    constructor
    · intro h
      rw [h, mul_zero, zero_mul] at K23
      rcases mul_eq_zero.mp K23.symm with h1 | h1
      · rcases mul_eq_zero.mp h1 with h2 | h2
        · exact absurd h2 s012
        · exact h2
      · exact absurd h1 d013
    · intro h
      rw [h, mul_zero, zero_mul] at K23
      rcases mul_eq_zero.mp K23 with h1 | h1
      · rcases mul_eq_zero.mp h1 with h2 | h2
        · exact absurd h2 s013
        · exact h2
      · exact absurd h1 d012
  -- they do not all vanish
  have hnot : ¬ (w0 = 0 ∧ w1 = 0 ∧ w2 = 0) := by
    rintro ⟨a0, a1, a2⟩
    apply s012
    rw [a0] at hw0
    rw [a1] at hw1
    rw [a2] at hw2
    linear_combination (-(x1 * y2 - x2 * y1)) * hw0 + (x0 * y2 - x2 * y0) * hw1
      - (x0 * y1 - x1 * y0) * hw2
  have n0 : w0 ≠ 0 := fun h => hnot ⟨h, z01.mp h, z12.mp (z01.mp h)⟩
  have n1 : w1 ≠ 0 := fun h => n0 (z01.mpr h)
  have n2 : w2 ≠ 0 := fun h => n1 (z12.mpr h)
  have n3 : w3 ≠ 0 := fun h => n2 (z23.mpr h)
  refine ⟨⟨n0, n1, n2, n3⟩, fun hdet => ?_⟩
  -- the determinant of the images of three corners, computed in two ways
  have P : (h11 * (h22 - h23 * h32) - h12 * (h21 - h23 * h31) + h13 * (h21 * h32 - h22 * h31))
        * ((x1 - x0) * (y2 - y0) - (x2 - x0) * (y1 - y0))
      = ((X1 - X0) * (Y2 - Y0) - (X2 - X0) * (Y1 - Y0)) * (w0 * w1 * w2) := by
    have Q : (h11 * (h22 - h23 * h32) - h12 * (h21 - h23 * h31)
          + h13 * (h21 * h32 - h22 * h31))
          * ((x1 - x0) * (y2 - y0) - (x2 - x0) * (y1 - y0))
        = (h11 * x0 + h12 * y0 + h13)
            * ((h21 * x1 + h22 * y1 + h23) * (h31 * x2 + h32 * y2 + 1)
              - (h21 * x2 + h22 * y2 + h23) * (h31 * x1 + h32 * y1 + 1))
          - (h11 * x1 + h12 * y1 + h13)
            * ((h21 * x0 + h22 * y0 + h23) * (h31 * x2 + h32 * y2 + 1)
              - (h21 * x2 + h22 * y2 + h23) * (h31 * x0 + h32 * y0 + 1))
          + (h11 * x2 + h12 * y2 + h13)
            * ((h21 * x0 + h22 * y0 + h23) * (h31 * x1 + h32 * y1 + 1)
              - (h21 * x1 + h22 * y1 + h23) * (h31 * x0 + h32 * y0 + 1)) := by
      ring
    rw [Q, ← hw0, ← hw1, ← hw2, e0x, e0y, e1x, e1y, e2x, e2y]
    ring
  rw [hdet, zero_mul] at P
  rcases mul_eq_zero.mp P.symm with h1 | h1
  · exact d012 h1
  · exact mul_ne_zero (mul_ne_zero n0 n1) n2 h1

/-! ## Rotate and flip keys -/

theorem idleBase_ignores (c : KeyCode) : IgnoresKey idleBase c := fun _ => rfl

theorem length_four {l : List Vec2} (h : l.length = 4) : ∃ a b c d, l = [a, b, c, d] := by
  match l, h with
  | [a, b, c, d], _ => exact ⟨a, b, c, d, rfl⟩

theorem keyDown_F9 {base : WarpBase → KeyEvent → WarpBase × KeyEvent}
    (hb : IgnoresKey base KeyCode.KEY_F9) (w : Warp) (p0 p1 p2 p3 : Vec2)
    (hp : w.mPoints = [p0, p1, p2, p3]) (hs : w.mSelected < 4) (he : w.isEditMode = true) :
    keyDown base w ⟨KeyCode.KEY_F9, false⟩ =
      ({ w with mPoints := [p3, p0, p1, p2], mSelected := (w.mSelected + 1) % 4, mIsDirty := true },
        ⟨KeyCode.KEY_F9, true⟩) := by
  have hlt : ¬ (4 ≤ w.mSelected) := by omega
  have hmod : (w.mSelected + 1) % UINT_RANGE = w.mSelected + 1 := by
    unfold UINT_RANGE; omega
  simp [keyDown, hb w.toWarpBase, hp, he, hlt, hmod, swapPoints, pointAt]

theorem keyDown_F10 {base : WarpBase → KeyEvent → WarpBase × KeyEvent}
    (hb : IgnoresKey base KeyCode.KEY_F10) (w : Warp) (p0 p1 p2 p3 : Vec2)
    (hp : w.mPoints = [p0, p1, p2, p3]) (hs : w.mSelected < 4) (he : w.isEditMode = true) :
    keyDown base w ⟨KeyCode.KEY_F10, false⟩ =
      ({ w with mPoints := [p1, p2, p3, p0], mSelected := (w.mSelected + 3) % 4, mIsDirty := true },
        ⟨KeyCode.KEY_F10, true⟩) := by
  have hlt : ¬ (4 ≤ w.mSelected) := by omega
  have hmod : (w.mSelected + 3) % UINT_RANGE = w.mSelected + 3 := by
    unfold UINT_RANGE; omega
  simp [keyDown, hb w.toWarpBase, hp, he, hlt, hmod, swapPoints, pointAt]

theorem keyDown_F11 {base : WarpBase → KeyEvent → WarpBase × KeyEvent}
    (hb : IgnoresKey base KeyCode.KEY_F11) (w : Warp) (p0 p1 p2 p3 : Vec2)
    (hp : w.mPoints = [p0, p1, p2, p3]) (hs : w.mSelected < 4) (he : w.isEditMode = true) :
    keyDown base w ⟨KeyCode.KEY_F11, false⟩ =
      ({ w with
          mPoints := [p1, p0, p3, p2]
          mSelected := if w.mSelected % 2 = 1 then w.mSelected - 1 else w.mSelected + 1
          mIsDirty := true },
        ⟨KeyCode.KEY_F11, true⟩) := by
  have hlt : ¬ (4 ≤ w.mSelected) := by omega
  have hsel : (if w.mSelected % 2 ≠ 0 then (w.mSelected + UINT_RANGE - 1) % UINT_RANGE
      else (w.mSelected + 1) % UINT_RANGE)
      = if w.mSelected % 2 = 1 then w.mSelected - 1 else w.mSelected + 1 := by
    unfold UINT_RANGE; split_ifs <;> omega
  have hsel2 : (if w.mSelected % 2 = 1 then (w.mSelected + UINT_RANGE - 1) % UINT_RANGE
      else (w.mSelected + 1) % UINT_RANGE)
      = if w.mSelected % 2 = 1 then w.mSelected - 1 else w.mSelected + 1 := by
    unfold UINT_RANGE; split_ifs <;> omega
  simp only [keyDown, hb w.toWarpBase]
  simp [hp, he, hlt, hsel, hsel2, swapPoints, pointAt]

theorem keyDown_F12 {base : WarpBase → KeyEvent → WarpBase × KeyEvent}
    (hb : IgnoresKey base KeyCode.KEY_F12) (w : Warp) (p0 p1 p2 p3 : Vec2)
    (hp : w.mPoints = [p0, p1, p2, p3]) (hs : w.mSelected < 4) (he : w.isEditMode = true) :
    keyDown base w ⟨KeyCode.KEY_F12, false⟩ =
      ({ w with mPoints := [p3, p2, p1, p0], mSelected := 3 - w.mSelected, mIsDirty := true },
        ⟨KeyCode.KEY_F12, true⟩) := by
  have hlt : ¬ (4 ≤ w.mSelected) := by omega
  have hsel : ((4 % UINT_RANGE + UINT_RANGE - 1) % UINT_RANGE + UINT_RANGE - w.mSelected)
      % UINT_RANGE = 3 - w.mSelected := by
    unfold UINT_RANGE; omega
  simp only [keyDown, hb w.toWarpBase]
  simp [hp, he, hlt, hsel, swapPoints, pointAt]

theorem keyDown_notEdit {base : WarpBase → KeyEvent → WarpBase × KeyEvent} {c : KeyCode}
    (hb : IgnoresKey base c) (w : Warp) (he : w.isEditMode = false) :
    keyDown base w ⟨c, false⟩ = (w, ⟨c, false⟩) := by
  simp [keyDown, hb w.toWarpBase, he]

/-- C6 (as stated, refuted): with four control points on the unit square, index 4
selected (out of range), edit mode on and a base class that ignores the key, F9 does
not rotate the control points and does not set the dirty flag. -/
theorem keyDown_unselected_counterexample :
    ¬ ((keyDown idleBase (sampleWarp 4) ⟨KeyCode.KEY_F9, false⟩).1.mPoints
          = [⟨0, 1⟩, ⟨0, 0⟩, ⟨1, 0⟩, ⟨1, 1⟩]
        ∧ (keyDown idleBase (sampleWarp 4) ⟨KeyCode.KEY_F9, false⟩).1.mIsDirty = true
        ∧ (keyDown idleBase (sampleWarp 4) ⟨KeyCode.KEY_F9, false⟩).1.mSelected = 4) := by
  have h : keyDown idleBase (sampleWarp 4) ⟨KeyCode.KEY_F9, false⟩
      = (sampleWarp 4, ⟨KeyCode.KEY_F9, false⟩) := by
    simp [keyDown, idleBase, sampleWarp, unitSquare]
  rw [h]
  simp [sampleWarp]

/-- C6 (amended): when the selected index is out of range (`mSelected >= mPoints.size()`)
and the base class has left the object and the event alone, `keyDown` does nothing at
all: the control points are not permuted, the dirty flag and the selected index keep
their values, and the event is returned as it came (not marked handled). -/
theorem keyDown_unselected (base : WarpBase → KeyEvent → WarpBase × KeyEvent)
    (w : Warp) (e : KeyEvent) (hb : base w.toWarpBase e = (w.toWarpBase, e))
    (hsel : w.mPoints.length ≤ w.mSelected) :
    keyDown base w e = (w, e) := by
  simp only [keyDown, hb]
  split_ifs <;> rfl

theorem keyDown_unselected_witness :
    keyDown idleBase (sampleWarp 4) ⟨KeyCode.KEY_F11, false⟩
      = (sampleWarp 4, ⟨KeyCode.KEY_F11, false⟩) :=
  keyDown_unselected idleBase (sampleWarp 4) ⟨KeyCode.KEY_F11, false⟩ rfl
    (by simp [sampleWarp, unitSquare])

theorem rotate_roundtrip_editing (base : WarpBase → KeyEvent → WarpBase × KeyEvent)
    (hb9 : IgnoresKey base KeyCode.KEY_F9) (hb10 : IgnoresKey base KeyCode.KEY_F10)
    (w : Warp) (hlen : w.mPoints.length = 4) (hs : w.mSelected < 4)
    (he : w.isEditMode = true) :
    ((keyDown base (keyDown base w ⟨KeyCode.KEY_F10, false⟩).1 ⟨KeyCode.KEY_F9, false⟩).1.mPoints
        = w.mPoints
      ∧ (keyDown base (keyDown base w ⟨KeyCode.KEY_F10, false⟩).1
          ⟨KeyCode.KEY_F9, false⟩).1.mSelected = w.mSelected)
    ∧ ((keyDown base (keyDown base w ⟨KeyCode.KEY_F9, false⟩).1
          ⟨KeyCode.KEY_F10, false⟩).1.mPoints = w.mPoints
      ∧ (keyDown base (keyDown base w ⟨KeyCode.KEY_F9, false⟩).1
          ⟨KeyCode.KEY_F10, false⟩).1.mSelected = w.mSelected) := by
  obtain ⟨p0, p1, p2, p3, hp⟩ := length_four hlen
  rw [keyDown_F10 hb10 w p0 p1 p2 p3 hp hs he, keyDown_F9 hb9 w p0 p1 p2 p3 hp hs he]
  rw [keyDown_F9 hb9 _ p1 p2 p3 p0, keyDown_F10 hb10 _ p3 p0 p1 p2]
  · refine ⟨⟨hp.symm, ?_⟩, ⟨hp.symm, ?_⟩⟩
    · show ((w.mSelected + 3) % 4 + 1) % 4 = w.mSelected
      omega
    · show ((w.mSelected + 1) % 4 + 3) % 4 = w.mSelected
      omega
  all_goals first | rfl | exact he | exact Nat.mod_lt _ (by norm_num)

/-- C7: with four control points, a selected index in 0..3 and a base class that ignores
F9 and F10, rotate-CW (F10) followed by rotate-CCW (F9) gives back the original control
points, slot by slot, and the original selected index, and so does rotate-CCW followed
by rotate-CW. -/
theorem rotate_roundtrip (base : WarpBase → KeyEvent → WarpBase × KeyEvent)
    (hb9 : IgnoresKey base KeyCode.KEY_F9) (hb10 : IgnoresKey base KeyCode.KEY_F10)
    (w : Warp) (hlen : w.mPoints.length = 4) (hs : w.mSelected < 4) :
    ((keyDown base (keyDown base w ⟨KeyCode.KEY_F10, false⟩).1 ⟨KeyCode.KEY_F9, false⟩).1.mPoints
        = w.mPoints
      ∧ (keyDown base (keyDown base w ⟨KeyCode.KEY_F10, false⟩).1
          ⟨KeyCode.KEY_F9, false⟩).1.mSelected = w.mSelected)
    ∧ ((keyDown base (keyDown base w ⟨KeyCode.KEY_F9, false⟩).1
          ⟨KeyCode.KEY_F10, false⟩).1.mPoints = w.mPoints
      ∧ (keyDown base (keyDown base w ⟨KeyCode.KEY_F9, false⟩).1
          ⟨KeyCode.KEY_F10, false⟩).1.mSelected = w.mSelected) := by
  cases he : w.isEditMode with
  | true => exact rotate_roundtrip_editing base hb9 hb10 w hlen hs he
  | false =>
    simp [keyDown_notEdit hb10 w he, keyDown_notEdit hb9 w he]

theorem rotate_roundtrip_witness :
    ((keyDown idleBase (keyDown idleBase (sampleWarp 2) ⟨KeyCode.KEY_F10, false⟩).1
          ⟨KeyCode.KEY_F9, false⟩).1.mPoints = (sampleWarp 2).mPoints
      ∧ (keyDown idleBase (keyDown idleBase (sampleWarp 2) ⟨KeyCode.KEY_F10, false⟩).1
          ⟨KeyCode.KEY_F9, false⟩).1.mSelected = (sampleWarp 2).mSelected)
    ∧ ((keyDown idleBase (keyDown idleBase (sampleWarp 2) ⟨KeyCode.KEY_F9, false⟩).1
          ⟨KeyCode.KEY_F10, false⟩).1.mPoints = (sampleWarp 2).mPoints
      ∧ (keyDown idleBase (keyDown idleBase (sampleWarp 2) ⟨KeyCode.KEY_F9, false⟩).1
          ⟨KeyCode.KEY_F10, false⟩).1.mSelected = (sampleWarp 2).mSelected) :=
  rotate_roundtrip idleBase (idleBase_ignores _) (idleBase_ignores _) (sampleWarp 2)
    (by simp [sampleWarp, unitSquare]) (by simp [sampleWarp])

theorem flip_involution_editing (base : WarpBase → KeyEvent → WarpBase × KeyEvent)
    (hb11 : IgnoresKey base KeyCode.KEY_F11) (hb12 : IgnoresKey base KeyCode.KEY_F12)
    (w : Warp) (hlen : w.mPoints.length = 4) (hs : w.mSelected < 4)
    (he : w.isEditMode = true) :
    ((keyDown base (keyDown base w ⟨KeyCode.KEY_F11, false⟩).1
          ⟨KeyCode.KEY_F11, false⟩).1.mPoints = w.mPoints
      ∧ (keyDown base (keyDown base w ⟨KeyCode.KEY_F11, false⟩).1
          ⟨KeyCode.KEY_F11, false⟩).1.mSelected = w.mSelected)
    ∧ ((keyDown base (keyDown base w ⟨KeyCode.KEY_F12, false⟩).1
          ⟨KeyCode.KEY_F12, false⟩).1.mPoints = w.mPoints
      ∧ (keyDown base (keyDown base w ⟨KeyCode.KEY_F12, false⟩).1
          ⟨KeyCode.KEY_F12, false⟩).1.mSelected = w.mSelected) := by
  obtain ⟨p0, p1, p2, p3, hp⟩ := length_four hlen
  have h11 : (if w.mSelected % 2 = 1 then w.mSelected - 1 else w.mSelected + 1) < 4 := by
    split_ifs <;> omega
  have h12 : 3 - w.mSelected < 4 := by omega
  rw [keyDown_F11 hb11 w p0 p1 p2 p3 hp hs he, keyDown_F12 hb12 w p0 p1 p2 p3 hp hs he]
  rw [keyDown_F11 hb11 _ p1 p0 p3 p2, keyDown_F12 hb12 _ p3 p2 p1 p0]
  · refine ⟨⟨hp.symm, ?_⟩, ⟨hp.symm, ?_⟩⟩
    · show (if (if w.mSelected % 2 = 1 then w.mSelected - 1 else w.mSelected + 1) % 2 = 1
          then (if w.mSelected % 2 = 1 then w.mSelected - 1 else w.mSelected + 1) - 1
          else (if w.mSelected % 2 = 1 then w.mSelected - 1 else w.mSelected + 1) + 1)
        = w.mSelected
      split_ifs <;> omega
    · show 3 - (3 - w.mSelected) = w.mSelected
      omega
  all_goals first | rfl | exact he | exact h11 | exact h12

/-- C8: with four control points, a selected index in 0..3 and a base class that ignores
F11 and F12, flip-horizontal (F11) applied twice gives back the original control points
and the original selected index, and so does flip-vertical (F12) applied twice. -/
theorem flip_involution (base : WarpBase → KeyEvent → WarpBase × KeyEvent)
    (hb11 : IgnoresKey base KeyCode.KEY_F11) (hb12 : IgnoresKey base KeyCode.KEY_F12)
    (w : Warp) (hlen : w.mPoints.length = 4) (hs : w.mSelected < 4) :
    ((keyDown base (keyDown base w ⟨KeyCode.KEY_F11, false⟩).1
          ⟨KeyCode.KEY_F11, false⟩).1.mPoints = w.mPoints
      ∧ (keyDown base (keyDown base w ⟨KeyCode.KEY_F11, false⟩).1
          ⟨KeyCode.KEY_F11, false⟩).1.mSelected = w.mSelected)
    ∧ ((keyDown base (keyDown base w ⟨KeyCode.KEY_F12, false⟩).1
          ⟨KeyCode.KEY_F12, false⟩).1.mPoints = w.mPoints
      ∧ (keyDown base (keyDown base w ⟨KeyCode.KEY_F12, false⟩).1
          ⟨KeyCode.KEY_F12, false⟩).1.mSelected = w.mSelected) := by
  cases he : w.isEditMode with
  | true => exact flip_involution_editing base hb11 hb12 w hlen hs he
  | false =>
    simp [keyDown_notEdit hb11 w he, keyDown_notEdit hb12 w he]

theorem flip_involution_witness :
    ((keyDown idleBase (keyDown idleBase (sampleWarp 3) ⟨KeyCode.KEY_F11, false⟩).1
          ⟨KeyCode.KEY_F11, false⟩).1.mPoints = (sampleWarp 3).mPoints
      ∧ (keyDown idleBase (keyDown idleBase (sampleWarp 3) ⟨KeyCode.KEY_F11, false⟩).1
          ⟨KeyCode.KEY_F11, false⟩).1.mSelected = (sampleWarp 3).mSelected)
    ∧ ((keyDown idleBase (keyDown idleBase (sampleWarp 3) ⟨KeyCode.KEY_F12, false⟩).1
          ⟨KeyCode.KEY_F12, false⟩).1.mPoints = (sampleWarp 3).mPoints
      ∧ (keyDown idleBase (keyDown idleBase (sampleWarp 3) ⟨KeyCode.KEY_F12, false⟩).1
          ⟨KeyCode.KEY_F12, false⟩).1.mSelected = (sampleWarp 3).mSelected) :=
  flip_involution idleBase (idleBase_ignores _) (idleBase_ignores _) (sampleWarp 3)
    (by simp [sampleWarp, unitSquare]) (by simp [sampleWarp])

theorem selection_tracks_corner_editing (base : WarpBase → KeyEvent → WarpBase × KeyEvent)
    (c : KeyCode)
    (hc : c = KeyCode.KEY_F9 ∨ c = KeyCode.KEY_F10 ∨ c = KeyCode.KEY_F11 ∨ c = KeyCode.KEY_F12)
    (hb : IgnoresKey base c)
    (w : Warp) (hlen : w.mPoints.length = 4) (hs : w.mSelected < 4)
    (he : w.isEditMode = true) :
    (keyDown base w ⟨c, false⟩).1.mSelected < 4
      ∧ pointAt (keyDown base w ⟨c, false⟩).1.mPoints (keyDown base w ⟨c, false⟩).1.mSelected
          = pointAt w.mPoints w.mSelected := by
  obtain ⟨p0, p1, p2, p3, hp⟩ := length_four hlen
  obtain ⟨s, hsel⟩ : ∃ s, w.mSelected = s := ⟨_, rfl⟩
  rw [hsel] at hs
  rcases hc with hc | hc | hc | hc <;> subst hc
  · rw [keyDown_F9 hb w p0 p1 p2 p3 hp (hsel ▸ hs) he]
    simp only [hsel, hp]
    interval_cases s <;> simp [pointAt]
  · rw [keyDown_F10 hb w p0 p1 p2 p3 hp (hsel ▸ hs) he]
    simp only [hsel, hp]
    interval_cases s <;> simp [pointAt]
  · rw [keyDown_F11 hb w p0 p1 p2 p3 hp (hsel ▸ hs) he]
    simp only [hsel, hp]
    interval_cases s <;> simp [pointAt]
  · rw [keyDown_F12 hb w p0 p1 p2 p3 hp (hsel ▸ hs) he]
    simp only [hsel, hp]
    interval_cases s <;> simp [pointAt]

/-- C9: for each of the keys F9 (rotate-CCW), F10 (rotate-CW), F11 (flip-horizontal)
and F12 (flip-vertical), with four control points, a selected index in 0..3 and a base
class that ignores the key: the new selected index is again in 0..3 and the control
point in the selected slot afterwards is the control point that was in the selected
slot before. -/
theorem selection_tracks_corner (base : WarpBase → KeyEvent → WarpBase × KeyEvent)
    (c : KeyCode)
    (hc : c = KeyCode.KEY_F9 ∨ c = KeyCode.KEY_F10 ∨ c = KeyCode.KEY_F11 ∨ c = KeyCode.KEY_F12)
    (hb : IgnoresKey base c)
    (w : Warp) (hlen : w.mPoints.length = 4) (hs : w.mSelected < 4) :
    (keyDown base w ⟨c, false⟩).1.mSelected < 4
      ∧ pointAt (keyDown base w ⟨c, false⟩).1.mPoints (keyDown base w ⟨c, false⟩).1.mSelected
          = pointAt w.mPoints w.mSelected := by
  cases he : w.isEditMode with
  | true => exact selection_tracks_corner_editing base c hc hb w hlen hs he
  | false =>
    rw [keyDown_notEdit hb w he]
    exact ⟨hs, rfl⟩

theorem selection_tracks_corner_witness :
    (keyDown idleBase (sampleWarp 1) ⟨KeyCode.KEY_F12, false⟩).1.mSelected < 4
      ∧ pointAt (keyDown idleBase (sampleWarp 1) ⟨KeyCode.KEY_F12, false⟩).1.mPoints
            (keyDown idleBase (sampleWarp 1) ⟨KeyCode.KEY_F12, false⟩).1.mSelected
          = pointAt (sampleWarp 1).mPoints (sampleWarp 1).mSelected :=
  selection_tracks_corner idleBase KeyCode.KEY_F12 (by simp) (idleBase_ignores _)
    (sampleWarp 1) (by simp [sampleWarp, unitSquare]) (by simp [sampleWarp])

/-- C10: with control points `[p0, p1, p2, p3]`, a selected index in 0..3, edit mode on
and a base class that ignores the four keys: F9 leaves `[p3, p0, p1, p2]`, F10 leaves
`[p1, p2, p3, p0]`, F11 leaves `[p1, p0, p3, p2]`, F12 leaves `[p3, p2, p1, p0]`; the
points themselves are unchanged, there are still four of them, and the dirty flag is
set in all four cases. -/
theorem rotate_flip_permutation (base : WarpBase → KeyEvent → WarpBase × KeyEvent)
    (hb9 : IgnoresKey base KeyCode.KEY_F9) (hb10 : IgnoresKey base KeyCode.KEY_F10)
    (hb11 : IgnoresKey base KeyCode.KEY_F11) (hb12 : IgnoresKey base KeyCode.KEY_F12)
    (w : Warp) (p0 p1 p2 p3 : Vec2) (hp : w.mPoints = [p0, p1, p2, p3])
    (hs : w.mSelected < 4) (he : w.isEditMode = true) :
    ((keyDown base w ⟨KeyCode.KEY_F9, false⟩).1.mPoints = [p3, p0, p1, p2]
      ∧ (keyDown base w ⟨KeyCode.KEY_F9, false⟩).1.mPoints.length = 4
      ∧ (keyDown base w ⟨KeyCode.KEY_F9, false⟩).1.mIsDirty = true)
    ∧ ((keyDown base w ⟨KeyCode.KEY_F10, false⟩).1.mPoints = [p1, p2, p3, p0]
      ∧ (keyDown base w ⟨KeyCode.KEY_F10, false⟩).1.mPoints.length = 4
      ∧ (keyDown base w ⟨KeyCode.KEY_F10, false⟩).1.mIsDirty = true)
    ∧ ((keyDown base w ⟨KeyCode.KEY_F11, false⟩).1.mPoints = [p1, p0, p3, p2]
      ∧ (keyDown base w ⟨KeyCode.KEY_F11, false⟩).1.mPoints.length = 4
      ∧ (keyDown base w ⟨KeyCode.KEY_F11, false⟩).1.mIsDirty = true)
    ∧ ((keyDown base w ⟨KeyCode.KEY_F12, false⟩).1.mPoints = [p3, p2, p1, p0]
      ∧ (keyDown base w ⟨KeyCode.KEY_F12, false⟩).1.mPoints.length = 4
      ∧ (keyDown base w ⟨KeyCode.KEY_F12, false⟩).1.mIsDirty = true) := by
  rw [keyDown_F9 hb9 w p0 p1 p2 p3 hp hs he, keyDown_F10 hb10 w p0 p1 p2 p3 hp hs he,
    keyDown_F11 hb11 w p0 p1 p2 p3 hp hs he, keyDown_F12 hb12 w p0 p1 p2 p3 hp hs he]
  simp

theorem rotate_flip_permutation_witness :
    ((keyDown idleBase (sampleWarp 0) ⟨KeyCode.KEY_F9, false⟩).1.mPoints
        = [⟨0, 1⟩, ⟨0, 0⟩, ⟨1, 0⟩, ⟨1, 1⟩]
      ∧ (keyDown idleBase (sampleWarp 0) ⟨KeyCode.KEY_F9, false⟩).1.mPoints.length = 4
      ∧ (keyDown idleBase (sampleWarp 0) ⟨KeyCode.KEY_F9, false⟩).1.mIsDirty = true)
    ∧ ((keyDown idleBase (sampleWarp 0) ⟨KeyCode.KEY_F10, false⟩).1.mPoints
        = [⟨1, 0⟩, ⟨1, 1⟩, ⟨0, 1⟩, ⟨0, 0⟩]
      ∧ (keyDown idleBase (sampleWarp 0) ⟨KeyCode.KEY_F10, false⟩).1.mPoints.length = 4
      ∧ (keyDown idleBase (sampleWarp 0) ⟨KeyCode.KEY_F10, false⟩).1.mIsDirty = true)
    ∧ ((keyDown idleBase (sampleWarp 0) ⟨KeyCode.KEY_F11, false⟩).1.mPoints
        = [⟨1, 0⟩, ⟨0, 0⟩, ⟨0, 1⟩, ⟨1, 1⟩]
      ∧ (keyDown idleBase (sampleWarp 0) ⟨KeyCode.KEY_F11, false⟩).1.mPoints.length = 4
      ∧ (keyDown idleBase (sampleWarp 0) ⟨KeyCode.KEY_F11, false⟩).1.mIsDirty = true)
    ∧ ((keyDown idleBase (sampleWarp 0) ⟨KeyCode.KEY_F12, false⟩).1.mPoints
        = [⟨0, 1⟩, ⟨1, 1⟩, ⟨1, 0⟩, ⟨0, 0⟩]
      ∧ (keyDown idleBase (sampleWarp 0) ⟨KeyCode.KEY_F12, false⟩).1.mPoints.length = 4
      ∧ (keyDown idleBase (sampleWarp 0) ⟨KeyCode.KEY_F12, false⟩).1.mIsDirty = true) :=
  rotate_flip_permutation idleBase (idleBase_ignores _) (idleBase_ignores _)
    (idleBase_ignores _) (idleBase_ignores _) (sampleWarp 0) ⟨0, 0⟩ ⟨1, 0⟩ ⟨1, 1⟩ ⟨0, 1⟩
    rfl (by simp [sampleWarp]) rfl

/-! ## The homography: corner mapping and the identity case -/

/-- C1: when the 8×8 coefficient matrix built by `getPerspectiveTransform` is
nonsingular, the returned matrix `M` sends every source corner `(x, y, 0, 1)` to
`(w * x', w * y', 0, w)`, where `(x', y')` is the destination corner and
`w = h31 * x + h32 * y + 1`; whenever `w` is not zero the perspective divide gives
exactly the destination corner. -/
theorem corner_mapping (src dst : Fin 4 → Vec2)
    (hns : (coeffBlock (flat (initP src dst))).det ≠ 0) (i : Fin 4) :
    (getPerspectiveTransform src dst).mulVec (homogeneous (src i))
        = ![weight (getPerspectiveTransform src dst) (src i) * (dst i).x,
            weight (getPerspectiveTransform src dst) (src i) * (dst i).y,
            0,
            weight (getPerspectiveTransform src dst) (src i)]
    ∧ (weight (getPerspectiveTransform src dst) (src i) ≠ 0 →
        applyTransform (getPerspectiveTransform src dst) (src i) = dst i) := by
  have hmv := mulVec_corner src dst hns i
  refine ⟨hmv, fun hw => ?_⟩
  unfold applyTransform
  rw [hmv]
  generalize weight (getPerspectiveTransform src dst) (src i) = W at hw
  show (⟨W * (dst i).x / W, W * (dst i).y / W⟩ : Vec2) = dst i
  rw [mul_div_cancel_left₀ _ hw, mul_div_cancel_left₀ _ hw]

theorem corner_mapping_witness :
    (getPerspectiveTransform (rect 1 1) (rect 2 3)).mulVec (homogeneous (rect 1 1 2))
        = ![weight (getPerspectiveTransform (rect 1 1) (rect 2 3)) (rect 1 1 2) * (rect 2 3 2).x,
            weight (getPerspectiveTransform (rect 1 1) (rect 2 3)) (rect 1 1 2) * (rect 2 3 2).y,
            0,
            weight (getPerspectiveTransform (rect 1 1) (rect 2 3)) (rect 1 1 2)]
    ∧ (weight (getPerspectiveTransform (rect 1 1) (rect 2 3)) (rect 1 1 2) ≠ 0 →
        applyTransform (getPerspectiveTransform (rect 1 1) (rect 2 3)) (rect 1 1 2)
          = rect 2 3 2) :=
  corner_mapping (rect 1 1) (rect 2 3)
    (det_rect 1 1 2 3 (by norm_num) (by norm_num) (by norm_num) (by norm_num)) 2

/-- C5: with the unit square `[(0,0), (1,0), (1,1), (0,1)]` as source and as destination,
`getPerspectiveTransform` returns the 4×4 identity matrix, and the inverse of that
matrix is the identity as well. -/
theorem identity_case :
    getPerspectiveTransform (quad ⟨0, 0⟩ ⟨1, 0⟩ ⟨1, 1⟩ ⟨0, 1⟩) (quad ⟨0, 0⟩ ⟨1, 0⟩ ⟨1, 1⟩ ⟨0, 1⟩) = 1
    ∧ inverse (getPerspectiveTransform (quad ⟨0, 0⟩ ⟨1, 0⟩ ⟨1, 1⟩ ⟨0, 1⟩)
        (quad ⟨0, 0⟩ ⟨1, 0⟩ ⟨1, 1⟩ ⟨0, 1⟩)) = 1 := by
  have h : getPerspectiveTransform (quad ⟨0, 0⟩ ⟨1, 0⟩ ⟨1, 1⟩ ⟨0, 1⟩)
      (quad ⟨0, 0⟩ ⟨1, 0⟩ ⟨1, 1⟩ ⟨0, 1⟩) = 1 := by
    have := getPerspectiveTransform_rect 1 1 1 1 one_ne_zero one_ne_zero one_ne_zero one_ne_zero
    rw [div_one, mat4_one] at this
    exact this
  rw [h]
  exact ⟨rfl, inverse_one⟩

/-! ## The round trip through the inverse -/

theorem getPerspectiveTransform_shape (src dst : Fin 4 → Vec2) :
    getPerspectiveTransform src dst
      = mat4 (rd (gaussianElimination (flat (initP src dst)) 9) (0 * 9 + 8))
          (rd (gaussianElimination (flat (initP src dst)) 9) (3 * 9 + 8)) 0
          (rd (gaussianElimination (flat (initP src dst)) 9) (6 * 9 + 8))
          (rd (gaussianElimination (flat (initP src dst)) 9) (1 * 9 + 8))
          (rd (gaussianElimination (flat (initP src dst)) 9) (4 * 9 + 8)) 0
          (rd (gaussianElimination (flat (initP src dst)) 9) (7 * 9 + 8))
          0 0 1 0
          (rd (gaussianElimination (flat (initP src dst)) 9) (2 * 9 + 8))
          (rd (gaussianElimination (flat (initP src dst)) 9) (5 * 9 + 8)) 0 1 := rfl

/-- On a nonsingular system between two quads without three collinear corners the
matrix returned is invertible and every source corner has a non-zero weight. -/
theorem transform_nondegenerate (src dst : Fin 4 → Vec2) (hsrc : NoThreeCollinear src)
    (hdst : NoThreeCollinear dst) (hns : (coeffBlock (flat (initP src dst))).det ≠ 0) :
    (getPerspectiveTransform src dst).det ≠ 0
    ∧ ∀ i, weight (getPerspectiveTransform src dst) (src i) ≠ 0 := by
  obtain ⟨a0, b0⟩ := solved_equations src dst hns 0
  obtain ⟨a1, b1⟩ := solved_equations src dst hns 1
  obtain ⟨a2, b2⟩ := solved_equations src dst hns 2
  obtain ⟨a3, b3⟩ := solved_equations src dst hns 3
  obtain ⟨s012, s013, s023, s123⟩ := hsrc
  obtain ⟨d012, d013, d023, d123⟩ := hdst
  obtain ⟨⟨n0, n1, n2, n3⟩, hd⟩ := homography_nondegenerate _ _ _ _ _ _ _ _
    _ _ _ _ _ _ _ _ _ _ _ _ _ _ _ _ s012 s013 s023 s123 d012 d013 d023 d123
    a0 b0 a1 b1 a2 b2 a3 b3
  constructor
  · rw [getPerspectiveTransform_shape, det_mat4]
    exact hd
  · intro i
    rw [weight_eq]
    fin_cases i
    · exact n0
    · exact n1
    · exact n2
    · exact n3

theorem smul_homogeneous (w : ℚ) (p : Vec2) :
    ![w * p.x, w * p.y, 0, w] = w • homogeneous p := by
  funext j
  fin_cases j <;> simp [homogeneous]

/-- C4 (amended): for quads without three collinear corners whose 8×8 coefficient matrix
is nonsingular, the Transform returned by `getPerspectiveTransform` has a non-zero
determinant, Transform times its inverse is the identity, and the inverse maps every
destination corner back to its source corner. -/
theorem invertible_roundtrip (src dst : Fin 4 → Vec2) (hsrc : NoThreeCollinear src)
    (hdst : NoThreeCollinear dst) (hns : (coeffBlock (flat (initP src dst))).det ≠ 0) :
    (getPerspectiveTransform src dst).det ≠ 0
    ∧ getPerspectiveTransform src dst * inverse (getPerspectiveTransform src dst) = 1
    ∧ ∀ i, applyTransform (inverse (getPerspectiveTransform src dst)) (dst i) = src i := by
  obtain ⟨hdet, hw⟩ := transform_nondegenerate src dst hsrc hdst hns
  refine ⟨hdet, mul_inverse _ hdet, fun i => ?_⟩
  have hmv := mulVec_corner src dst hns i
  rw [smul_homogeneous] at hmv
  have h1 : (inverse (getPerspectiveTransform src dst)).mulVec (homogeneous (dst i))
      = (weight (getPerspectiveTransform src dst) (src i))⁻¹ • homogeneous (src i) := by
    have h2 := congrArg (inverse (getPerspectiveTransform src dst)).mulVec hmv
    rw [Matrix.mulVec_mulVec, inverse_mul _ hdet, Matrix.one_mulVec, Matrix.mulVec_smul] at h2
    rw [h2, smul_smul, inv_mul_cancel₀ (hw i), one_smul]
  unfold applyTransform
  rw [h1]
  have hne := inv_ne_zero (hw i)
  generalize (weight (getPerspectiveTransform src dst) (src i))⁻¹ = u at hne
  show (⟨u * (src i).x / (u * 1), u * (src i).y / (u * 1)⟩ : Vec2) = src i
  rw [mul_one, mul_div_cancel_left₀ _ hne, mul_div_cancel_left₀ _ hne]

theorem noThreeCollinear_rect (a b : ℚ) (ha : a ≠ 0) (hb : b ≠ 0) : NoThreeCollinear (rect a b) := by
  simp [NoThreeCollinear, cross, rect, quad, ha, hb]

theorem invertible_roundtrip_witness :
    (getPerspectiveTransform (rect 1 1) (rect 2 3)).det ≠ 0
    ∧ getPerspectiveTransform (rect 1 1) (rect 2 3)
        * inverse (getPerspectiveTransform (rect 1 1) (rect 2 3)) = 1
    ∧ ∀ i, applyTransform (inverse (getPerspectiveTransform (rect 1 1) (rect 2 3)))
        (rect 2 3 i) = rect 1 1 i :=
  invertible_roundtrip (rect 1 1) (rect 2 3)
    (noThreeCollinear_rect 1 1 (by norm_num) (by norm_num))
    (noThreeCollinear_rect 2 3 (by norm_num) (by norm_num))
    (det_rect 1 1 2 3 (by norm_num) (by norm_num) (by norm_num) (by norm_num))

/-- When Transform times its inverse is the identity and the inverse maps the
destination corner `i` back to a source corner other than the origin, the coefficients
of the Transform satisfy the two projective equations of that correspondence. -/
theorem equations_of_roundtrip (src dst : Fin 4 → Vec2) (i : Fin 4)
    (hmul : getPerspectiveTransform src dst * inverse (getPerspectiveTransform src dst) = 1)
    (hx : (src i).x ≠ 0)
    (hmap : applyTransform (inverse (getPerspectiveTransform src dst)) (dst i) = src i) :
    rd (gaussianElimination (flat (initP src dst)) 9) (0 * 9 + 8) * (src i).x
        + rd (gaussianElimination (flat (initP src dst)) 9) (1 * 9 + 8) * (src i).y
        + rd (gaussianElimination (flat (initP src dst)) 9) (2 * 9 + 8)
      = (dst i).x * (rd (gaussianElimination (flat (initP src dst)) 9) (6 * 9 + 8) * (src i).x
        + rd (gaussianElimination (flat (initP src dst)) 9) (7 * 9 + 8) * (src i).y + 1)
    ∧ rd (gaussianElimination (flat (initP src dst)) 9) (3 * 9 + 8) * (src i).x
        + rd (gaussianElimination (flat (initP src dst)) 9) (4 * 9 + 8) * (src i).y
        + rd (gaussianElimination (flat (initP src dst)) 9) (5 * 9 + 8)
      = (dst i).y * (rd (gaussianElimination (flat (initP src dst)) 9) (6 * 9 + 8) * (src i).x
        + rd (gaussianElimination (flat (initP src dst)) 9) (7 * 9 + 8) * (src i).y + 1) := by
  have hq : (getPerspectiveTransform src dst).mulVec
      ((inverse (getPerspectiveTransform src dst)).mulVec (homogeneous (dst i)))
      = homogeneous (dst i) := by
    rw [Matrix.mulVec_mulVec, hmul, Matrix.one_mulVec]
  unfold applyTransform at hmap
  generalize (inverse (getPerspectiveTransform src dst)).mulVec (homogeneous (dst i)) = q
    at hq hmap
  rw [getPerspectiveTransform_shape] at hq
  generalize rd (gaussianElimination (flat (initP src dst)) 9) (0 * 9 + 8) = h11 at hq ⊢
  generalize rd (gaussianElimination (flat (initP src dst)) 9) (1 * 9 + 8) = h12 at hq ⊢
  generalize rd (gaussianElimination (flat (initP src dst)) 9) (2 * 9 + 8) = h13 at hq ⊢
  generalize rd (gaussianElimination (flat (initP src dst)) 9) (3 * 9 + 8) = h21 at hq ⊢
  generalize rd (gaussianElimination (flat (initP src dst)) 9) (4 * 9 + 8) = h22 at hq ⊢
  generalize rd (gaussianElimination (flat (initP src dst)) 9) (5 * 9 + 8) = h23 at hq ⊢
  generalize rd (gaussianElimination (flat (initP src dst)) 9) (6 * 9 + 8) = h31 at hq ⊢
  generalize rd (gaussianElimination (flat (initP src dst)) 9) (7 * 9 + 8) = h32 at hq ⊢
  have c0 := congrFun hq 0
  have c1 := congrFun hq 1
  have c3 := congrFun hq 3
  simp [mat4, homogeneous, Matrix.mulVec, Matrix.dotProduct, Fin.sum_univ_four] at c0 c1 c3
  have m1 : q 0 / q 3 = (src i).x := congrArg Vec2.x hmap
  have m2 : q 1 / q 3 = (src i).y := congrArg Vec2.y hmap
  have h3 : q 3 ≠ 0 := by
    intro h0
    rw [h0, div_zero] at m1
    exact hx m1.symm
  have q0 : q 0 = (src i).x * q 3 := by
    rw [← m1, div_mul_cancel₀ _ h3]
  have q1 : q 1 = (src i).y * q 3 := by
    rw [← m2, div_mul_cancel₀ _ h3]
  rw [q0, q1] at c0 c1 c3
  have hu : q 3 * (h31 * (src i).x + h32 * (src i).y + 1) = 1 := by linear_combination c3
  constructor
  · have : q 3 * (h11 * (src i).x + h12 * (src i).y + h13
        - (dst i).x * (h31 * (src i).x + h32 * (src i).y + 1)) = 0 := by
      linear_combination c0 - (dst i).x * hu
    rcases mul_eq_zero.mp this with h | h
    · exact absurd h h3
    · linear_combination h
  · have : q 3 * (h21 * (src i).x + h22 * (src i).y + h23
        - (dst i).y * (h31 * (src i).x + h32 * (src i).y + 1)) = 0 := by
      linear_combination c1 - (dst i).y * hu
    rcases mul_eq_zero.mp this with h | h
    · exact absurd h h3
    · linear_combination h

/-- C4 (as stated, refuted): in `skewSource` and in `skewDestination` no three corners
are collinear, yet it is not the case that the Transform returned for them has a
non-zero determinant, gives the identity when multiplied by its inverse, and has an
inverse that maps every destination corner back to its source corner. -/
theorem roundtrip_counterexample :
    NoThreeCollinear skewSource ∧ NoThreeCollinear skewDestination
    ∧ ¬ ((getPerspectiveTransform skewSource skewDestination).det ≠ 0
        ∧ getPerspectiveTransform skewSource skewDestination
            * inverse (getPerspectiveTransform skewSource skewDestination) = 1
        ∧ ∀ i, applyTransform (inverse (getPerspectiveTransform skewSource skewDestination))
            (skewDestination i) = skewSource i) := by
  refine ⟨?_, ?_, ?_⟩
  · simp [NoThreeCollinear, cross, skewSource, quad]
    norm_num
  · simp [NoThreeCollinear, cross, skewDestination, quad]
    norm_num
  · rintro ⟨-, hmul, hmap⟩
    obtain ⟨a0, b0⟩ := equations_of_roundtrip skewSource skewDestination 0 hmul
      (by simp [skewSource, quad]) (hmap 0)
    obtain ⟨a1, b1⟩ := equations_of_roundtrip skewSource skewDestination 1 hmul
      (by simp [skewSource, quad]) (hmap 1)
    obtain ⟨a2, b2⟩ := equations_of_roundtrip skewSource skewDestination 2 hmul
      (by simp [skewSource, quad]) (hmap 2)
    obtain ⟨a3, b3⟩ := equations_of_roundtrip skewSource skewDestination 3 hmul
      (by simp [skewSource, quad]) (hmap 3)
    simp [skewSource, skewDestination, quad] at a0 b0 a1 b1 a2 b2 a3 b3
    linarith

/-! ## The cached matrices -/


theorem updateSource_eq (s : Fin 4 → Vec2) (width height : Int) (h0 : s 0 = ⟨0, 0⟩)
    (h1 : (s 1).y = 0) (h3 : (s 3).x = 0) :
    updateSource s width height = rect (width : ℚ) (height : ℚ) := by
  funext i
  fin_cases i
  · simpa [updateSource, rect, quad, Function.update] using h0
  · simp [updateSource, rect, quad, Function.update, h1]
  · simp [updateSource, rect, quad, Function.update]
  · simp [updateSource, rect, quad, Function.update, h3]

theorem cacheValid_getTransform (w : Warp) (h : CacheValid w) : CacheValid (getTransform w).2 := by
  obtain ⟨h0, h1, h3, hc⟩ := h
  unfold getTransform
  by_cases hd : w.mIsDirty = true
  · rw [if_pos hd]
    have hs := updateSource_eq w.mSource w.mWidth w.mHeight h0 h1 h3
    simp only [getInvertedTransform, hd, if_true]
    refine ⟨?_, ?_, ?_, fun _ => ⟨?_, rfl⟩⟩
    · show updateSource w.mSource w.mWidth w.mHeight 0 = _
      rw [hs]; rfl
    · show (updateSource w.mSource w.mWidth w.mHeight 1).y = _
      rw [hs]; rfl
    · show (updateSource w.mSource w.mWidth w.mHeight 3).x = _
      rw [hs]; rfl
    · show getPerspectiveTransform (updateSource w.mSource w.mWidth w.mHeight) _ = _
      rw [hs]
  · rw [if_neg hd]
    exact ⟨h0, h1, h3, hc⟩

theorem cacheValid_getInvertedTransform (w : Warp) (h : CacheValid w) :
    CacheValid (getInvertedTransform w).2 := by
  obtain ⟨h0, h1, h3, hc⟩ := h
  unfold getInvertedTransform
  by_cases hd : w.mIsDirty = true
  · simp only [hd, if_true]
    exact ⟨h0, h1, h3, fun hf => by simp [hd] at hf⟩
  · simp only [hd, if_false]
    exact ⟨h0, h1, h3, hc⟩

theorem cacheValid_keyDown (base : WarpBase → KeyEvent → WarpBase × KeyEvent)
    (hb : MarksDirty base) (w : Warp) (e : KeyEvent) (h : CacheValid w) :
    CacheValid (keyDown base w e).1 := by
  obtain ⟨h0, h1, h3, hc⟩ := h
  have hbase : CacheValid { w with toWarpBase := (base w.toWarpBase e).1 } := by
    refine ⟨h0, h1, h3, fun hf => ?_⟩
    rcases hb w.toWarpBase e with hd | ⟨e1, e2, e3, e4, e5⟩
    · exact absurd hf (by simp [hd])
    · have := hc (by rw [← e5]; exact hf)
      show w.mTransform = getPerspectiveTransform
          (rect ((base w.toWarpBase e).1.mWidth : ℚ) ((base w.toWarpBase e).1.mHeight : ℚ))
          (destinationOf (base w.toWarpBase e).1.mPoints (base w.toWarpBase e).1.mWindowSize)
        ∧ w.mInverted = inverse w.mTransform
      rw [e1, e2, e3, e4]
      exact this
  unfold keyDown
  simp only []
  split_ifs <;> first
    | exact hbase
    | (split <;> first
        | exact hbase
        | exact ⟨hbase.1, hbase.2.1, hbase.2.2.1, fun hf => by simp at hf⟩)

/-- Every reachable object satisfies `CacheValid`. -/
theorem reachable_cacheValid (base : WarpBase → KeyEvent → WarpBase × KeyEvent)
    (hb : MarksDirty base) (w : Warp) (hr : Reachable base w) : CacheValid w := by
  induction hr with
  | construct w0 => exact ⟨rfl, rfl, rfl, fun hf => by simp [construct, reset] at hf⟩
  | reset _ ih => exact ⟨ih.1, ih.2.1, ih.2.2.1, fun hf => by simp [reset] at hf⟩
  | keyDown e _ ih => exact cacheValid_keyDown base hb _ e ih
  | change b hd _ ih => exact ⟨ih.1, ih.2.1, ih.2.2.1, fun hf => by simp [hd] at hf⟩
  | select sel edit _ ih => exact ⟨ih.1, ih.2.1, ih.2.2.1, ih.2.2.2⟩
  | getTransform _ ih => exact cacheValid_getTransform _ ih
  | getInvertedTransform _ ih => exact cacheValid_getInvertedTransform _ ih

/-- C3: in every object reachable from construction by `reset`, key presses (the base
class keeping its contract on the dirty flag), outside changes that set the dirty flag,
`getTransform` and `getInvertedTransform`, a clear dirty flag means that the cached
Transform is `getPerspectiveTransform` of the source rectangle
`[(0,0), (width,0), (width,height), (0,height)]` and of the control points scaled by the
window size, and that the cached InverseTransform is the inverse of that Transform. -/
theorem cache_valid (base : WarpBase → KeyEvent → WarpBase × KeyEvent)
    (hb : MarksDirty base) (w : Warp) (hr : Reachable base w) (hd : w.mIsDirty = false) :
    w.mTransform = getPerspectiveTransform (rect (w.mWidth : ℚ) (w.mHeight : ℚ))
        (destinationOf w.mPoints w.mWindowSize)
    ∧ w.mInverted = inverse w.mTransform :=
  (reachable_cacheValid base hb w hr).2.2.2 hd

theorem idleBase_marksDirty : MarksDirty idleBase :=
  fun _ _ => Or.inr ⟨rfl, rfl, rfl, rfl, rfl⟩

theorem cache_valid_witness :
    (getTransform (construct (sampleWarp 0))).2.mTransform
        = getPerspectiveTransform
            (rect ((getTransform (construct (sampleWarp 0))).2.mWidth : ℚ)
              ((getTransform (construct (sampleWarp 0))).2.mHeight : ℚ))
            (destinationOf (getTransform (construct (sampleWarp 0))).2.mPoints
              (getTransform (construct (sampleWarp 0))).2.mWindowSize)
    ∧ (getTransform (construct (sampleWarp 0))).2.mInverted
        = inverse (getTransform (construct (sampleWarp 0))).2.mTransform :=
  cache_valid idleBase idleBase_marksDirty (getTransform (construct (sampleWarp 0))).2
    (Reachable.getTransform (Reachable.construct (sampleWarp 0)))
    (by simp [getTransform, construct, reset, getInvertedTransform])

theorem inverse_eq_of_mul_eq_one (M N : Mat4) (h : M * N = 1) : inverse M = N := by
  have hdet : M.det ≠ 0 := by
    intro h0
    have := congrArg Matrix.det h
    rw [Matrix.det_mul, h0, zero_mul, Matrix.det_one] at this
    exact zero_ne_one this
  calc inverse M = inverse M * (M * N) := by rw [h, Matrix.mul_one]
    _ = (inverse M * M) * N := by rw [Matrix.mul_assoc]
    _ = N := by rw [inverse_mul M hdet, Matrix.one_mul]

theorem destinationOf_unitSquare (a b : ℚ) :
    destinationOf unitSquare ⟨a, b⟩ = rect a b := by
  funext i
  fin_cases i <;> simp [destinationOf, unitSquare, pointAt, rect, quad]

theorem inverse_scale2 :
    inverse (mat4 2 0 0 0 0 2 0 0 0 0 1 0 0 0 0 1)
      = mat4 (1 / 2) 0 0 0 0 (1 / 2) 0 0 0 0 1 0 0 0 0 1 := by
  apply inverse_eq_of_mul_eq_one
  rw [← mat4_one]
  ext i j
  fin_cases i <;> fin_cases j <;> simp [mat4, Matrix.mul_apply, Fin.sum_univ_four]

theorem staleWarp_reachable : Reachable idleBase staleWarp := by
  have h : Reachable idleBase
      { (getTransform (construct (sampleWarp 0))).2 with toWarpBase := staleWarp.toWarpBase } :=
    Reachable.change staleWarp.toWarpBase rfl
      (Reachable.getTransform (Reachable.construct (sampleWarp 0)))
  have e : ({ (getTransform (construct (sampleWarp 0))).2 with toWarpBase := staleWarp.toWarpBase }
      : Warp) = staleWarp := by
    have hT : getPerspectiveTransform (rect 1 1) (rect 1 1) = 1 := by
      have := getPerspectiveTransform_rect 1 1 1 1 one_ne_zero one_ne_zero one_ne_zero one_ne_zero
      rw [div_one, mat4_one] at this
      exact this
    have hs : updateSource ![⟨0, 0⟩, ⟨((1 : ℤ) : ℚ), 0⟩, ⟨((1 : ℤ) : ℚ), ((1 : ℤ) : ℚ)⟩,
        ⟨0, ((1 : ℤ) : ℚ)⟩] 1 1 = rect 1 1 := by
      rw [updateSource_eq _ _ _ rfl rfl rfl]
      simp
    simp only [getTransform, construct, reset, sampleWarp, getInvertedTransform, if_true,
      staleWarp]
    rw [hs]
    have hd := destinationOf_unitSquare 1 1
    unfold unitSquare at hd
    rw [hd, hT, inverse_one]
    rfl
  rw [e] at h
  exact h

/-- C2 (the code at the failing input): the object `staleWarp` is reachable (construct
with content 1×1 in a window 1×1, `getTransform`, then a resize of the window to 2×2
that sets the dirty flag).  On it `getInvertedTransform`, called first, returns the
identity, the inverse of the Transform cached before the resize, and leaves the dirty
flag set; `getTransform`, called first, caches the inverse of the Transform of the
current window, the scale by one half, which is a different matrix. -/
theorem getInvertedTransform_stale :
    Reachable idleBase staleWarp
    ∧ staleWarp.mIsDirty = true
    ∧ (getInvertedTransform staleWarp).1 = 1
    ∧ (getInvertedTransform staleWarp).2.mIsDirty = true
    ∧ (getTransform staleWarp).1 = mat4 2 0 0 0 0 2 0 0 0 0 1 0 0 0 0 1
    ∧ (getTransform staleWarp).2.mInverted = mat4 (1 / 2) 0 0 0 0 (1 / 2) 0 0 0 0 1 0 0 0 0 1
    ∧ (getInvertedTransform staleWarp).1 ≠ (getTransform staleWarp).2.mInverted := by
  have hT : (getTransform staleWarp).1 = mat4 2 0 0 0 0 2 0 0 0 0 1 0 0 0 0 1 := by
    have hs : updateSource ![⟨0, 0⟩, ⟨1, 0⟩, ⟨1, 1⟩, ⟨0, 1⟩] 1 1 = rect 1 1 := by
      rw [updateSource_eq _ _ _ rfl rfl rfl]
      simp
    have hd := destinationOf_unitSquare 2 2
    have := getPerspectiveTransform_rect 1 1 2 2 one_ne_zero one_ne_zero two_ne_zero two_ne_zero
    rw [div_one] at this
    simp only [getTransform, staleWarp, sampleWarp, if_true, getInvertedTransform]
    rw [hs, hd, this]
  have hI : (getTransform staleWarp).2.mInverted
      = mat4 (1 / 2) 0 0 0 0 (1 / 2) 0 0 0 0 1 0 0 0 0 1 := by
    have e : (getTransform staleWarp).2.mInverted = inverse (getTransform staleWarp).1 := by
      simp [getTransform, staleWarp, getInvertedTransform]
    rw [e, hT, inverse_scale2]
  have h1 : (getInvertedTransform staleWarp).1 = 1 := by
    simp [getInvertedTransform, staleWarp, sampleWarp, inverse_one]
  refine ⟨staleWarp_reachable, rfl, h1, by simp [getInvertedTransform, staleWarp], hT, hI, ?_⟩
  rw [h1, hI]
  intro h
  have := congrFun (congrFun h 0) 0
  simp [mat4] at this

/-- C11: from every state, `reset` leaves the control points equal to
`[(0,0), (1,0), (1,1), (0,1)]` and the dirty flag set, and changes nothing else: the
selected index, the cached Transform and InverseTransform, the source and destination
quads, the content size, the window size and the edit mode keep their values. -/
theorem reset_postcondition (w : Warp) :
    (reset w).mPoints = [⟨0, 0⟩, ⟨1, 0⟩, ⟨1, 1⟩, ⟨0, 1⟩]
    ∧ (reset w).mIsDirty = true
    ∧ (reset w).mSelected = w.mSelected
    ∧ (reset w).mTransform = w.mTransform
    ∧ (reset w).mInverted = w.mInverted
    ∧ (reset w).mSource = w.mSource
    ∧ (reset w).mDestination = w.mDestination
    ∧ (reset w).mWidth = w.mWidth
    ∧ (reset w).mHeight = w.mHeight
    ∧ (reset w).mWindowSize = w.mWindowSize
    ∧ (reset w).isEditMode = w.isEditMode :=
  ⟨rfl, rfl, rfl, rfl, rfl, rfl, rfl, rfl, rfl, rfl, rfl⟩

/-- C13: for every input the matrix returned by `getPerspectiveTransform` has the columns
`(h11, h21, 0, h31)`, `(h12, h22, 0, h32)`, `(0, 0, 1, 0)` and `(h13, h23, 0, 1)`, where
`h11, h12, h13, h21, h22, h23, h31, h32` are the entries `p[0][8] .. p[7][8]` of the solved
augmented matrix, in this order; its row 2 is `(0, 0, 1, 0)`, its entry `(3, 3)` is 1, and
applied to `(x, y, z, 1)` it gives
`(h11*x + h12*y + h13, h21*x + h22*y + h23, z, h31*x + h32*y + 1)`. -/
theorem embedding_layout (src dst : Fin 4 → Vec2) (x y z : ℚ) :
    (fun i => getPerspectiveTransform src dst i 0)
        = ![solved src dst 0, solved src dst 3, 0, solved src dst 6]
    ∧ (fun i => getPerspectiveTransform src dst i 1)
        = ![solved src dst 1, solved src dst 4, 0, solved src dst 7]
    ∧ (fun i => getPerspectiveTransform src dst i 2) = ![0, 0, 1, 0]
    ∧ (fun i => getPerspectiveTransform src dst i 3)
        = ![solved src dst 2, solved src dst 5, 0, 1]
    ∧ (fun j => getPerspectiveTransform src dst 2 j) = ![0, 0, 1, 0]
    ∧ getPerspectiveTransform src dst 3 3 = 1
    ∧ (getPerspectiveTransform src dst).mulVec ![x, y, z, 1]
        = ![solved src dst 0 * x + solved src dst 1 * y + solved src dst 2,
            solved src dst 3 * x + solved src dst 4 * y + solved src dst 5,
            z,
            solved src dst 6 * x + solved src dst 7 * y + 1] := by
  have h : getPerspectiveTransform src dst
      = mat4 (solved src dst 0) (solved src dst 3) 0 (solved src dst 6)
          (solved src dst 1) (solved src dst 4) 0 (solved src dst 7)
          0 0 1 0
          (solved src dst 2) (solved src dst 5) 0 1 := rfl
  rw [h]
  generalize solved src dst 0 = h11
  generalize solved src dst 1 = h12
  generalize solved src dst 2 = h13
  generalize solved src dst 3 = h21
  generalize solved src dst 4 = h22
  generalize solved src dst 5 = h23
  generalize solved src dst 6 = h31
  generalize solved src dst 7 = h32
  refine ⟨?_, ?_, ?_, ?_, ?_, ?_, ?_⟩
  · funext i; fin_cases i <;> rfl
  · funext i; fin_cases i <;> rfl
  · funext i; fin_cases i <;> rfl
  · funext i; fin_cases i <;> rfl
  · funext i; fin_cases i <;> rfl
  · rfl
  · funext i
    fin_cases i <;> simp [mat4, Matrix.mulVec, Matrix.dotProduct, Fin.sum_univ_four]

/-- C14: with the unit square as source and `[(0,0), (1/2,0), (1/2,1/2), (0,1/2)]` as
destination, the Transform returned by `getPerspectiveTransform`, applied to the point
`(1, 1)` and followed by the perspective divide, gives `(1/2, 1/2)`. -/
theorem half_scale :
    applyTransform
        (getPerspectiveTransform (quad ⟨0, 0⟩ ⟨1, 0⟩ ⟨1, 1⟩ ⟨0, 1⟩)
          (quad ⟨0, 0⟩ ⟨1 / 2, 0⟩ ⟨1 / 2, 1 / 2⟩ ⟨0, 1 / 2⟩))
        ⟨1, 1⟩
      = ⟨1 / 2, 1 / 2⟩ := by
  have h := getPerspectiveTransform_rect 1 1 (1 / 2) (1 / 2) one_ne_zero one_ne_zero
    (by norm_num) (by norm_num)
  have e : getPerspectiveTransform (quad ⟨0, 0⟩ ⟨1, 0⟩ ⟨1, 1⟩ ⟨0, 1⟩)
      (quad ⟨0, 0⟩ ⟨1 / 2, 0⟩ ⟨1 / 2, 1 / 2⟩ ⟨0, 1 / 2⟩)
      = mat4 (1 / 2) 0 0 0 0 (1 / 2) 0 0 0 0 1 0 0 0 0 1 := by
    rw [div_one] at h
    exact h
  rw [e]
  simp [applyTransform, homogeneous, mat4, Matrix.mulVec, Matrix.dotProduct, Fin.sum_univ_four]


theorem keyDown_mSource (base : WarpBase → KeyEvent → WarpBase × KeyEvent) (w : Warp)
    (e : KeyEvent) : (keyDown base w e).1.mSource = w.mSource := by
  unfold keyDown
  simp only []
  split_ifs <;> first | rfl | (split <;> rfl)

/-- What `getTransform` does on a dirty object, in one piece. -/
theorem getTransform_dirty (w : Warp) (hd : w.mIsDirty = true) :
    (getTransform w).1
        = getPerspectiveTransform (updateSource w.mSource w.mWidth w.mHeight)
            (destinationOf w.mPoints w.mWindowSize)
    ∧ (getTransform w).2.mSource = updateSource w.mSource w.mWidth w.mHeight
    ∧ (getTransform w).2.mDestination = destinationOf w.mPoints w.mWindowSize
    ∧ (getTransform w).2.mTransform = (getTransform w).1
    ∧ (getTransform w).2.mInverted = inverse (getTransform w).1
    ∧ (getTransform w).2.mIsDirty = false := by
  simp [getTransform, hd, getInvertedTransform]

theorem updateSource_fixed (s : Fin 4 → Vec2) (width height : Int) :
    updateSource s width height 0 = s 0
    ∧ (updateSource s width height 1).y = (s 1).y
    ∧ (updateSource s width height 3).x = (s 3).x := by
  simp [updateSource, Function.update]

/-- The three components of `mSource` that only the constructor assigns keep their
values in every reachable object. -/
theorem reachable_source (base : WarpBase → KeyEvent → WarpBase × KeyEvent) (w : Warp)
    (hr : Reachable base w) :
    w.mSource 0 = ⟨0, 0⟩ ∧ (w.mSource 1).y = 0 ∧ (w.mSource 3).x = 0 := by
  induction hr with
  | construct w0 => exact ⟨rfl, rfl, rfl⟩
  | reset _ ih => exact ih
  | keyDown e _ ih =>
    rw [keyDown_mSource]
    exact ih
  | change b hd _ ih => exact ih
  | select sel edit _ ih => exact ih
  | @getTransform w _ ih =>
    by_cases hd : w.mIsDirty = true
    · obtain ⟨-, hs, -⟩ := getTransform_dirty w hd
      obtain ⟨f0, f1, f3⟩ := updateSource_fixed w.mSource w.mWidth w.mHeight
      rw [hs, f0, f1, f3]
      exact ih
    · have : getTransform w = (w.mTransform, w) := by simp [getTransform, hd]
      rw [this]
      exact ih
  | @getInvertedTransform w _ ih =>
    have : (getInvertedTransform w).2.mSource = w.mSource := by
      unfold getInvertedTransform
      split_ifs <;> rfl
    rw [this]
    exact ih

theorem destinationOf_four (p0 p1 p2 p3 ws : Vec2) :
    destinationOf [p0, p1, p2, p3] ws
      = quad ⟨p0.x * ws.x, p0.y * ws.y⟩ ⟨p1.x * ws.x, p1.y * ws.y⟩
          ⟨p2.x * ws.x, p2.y * ws.y⟩ ⟨p3.x * ws.x, p3.y * ws.y⟩ := rfl

/-- C12: in every reachable dirty state with four control points `[p0, p1, p2, p3]` and
window size `(vx, vy)`, after `getTransform` the destination quad is
`[(p0.x*vx, p0.y*vy), ..., (p3.x*vx, p3.y*vy)]` and the source quad is
`[(0,0), (width,0), (width,height), (0,height)]` for the current content size; with the
window size `(800, 600)` and the control points as `reset` leaves them the destination
quad is `[(0,0), (800,0), (800,600), (0,600)]`. -/
theorem destination_quad (base : WarpBase → KeyEvent → WarpBase × KeyEvent) (w : Warp)
    (hr : Reachable base w) (hd : w.mIsDirty = true) (p0 p1 p2 p3 : Vec2)
    (hp : w.mPoints = [p0, p1, p2, p3]) :
    (getTransform w).2.mDestination
        = quad ⟨p0.x * w.mWindowSize.x, p0.y * w.mWindowSize.y⟩
            ⟨p1.x * w.mWindowSize.x, p1.y * w.mWindowSize.y⟩
            ⟨p2.x * w.mWindowSize.x, p2.y * w.mWindowSize.y⟩
            ⟨p3.x * w.mWindowSize.x, p3.y * w.mWindowSize.y⟩
    ∧ (getTransform w).2.mSource
        = quad ⟨0, 0⟩ ⟨(w.mWidth : ℚ), 0⟩ ⟨(w.mWidth : ℚ), (w.mHeight : ℚ)⟩
            ⟨0, (w.mHeight : ℚ)⟩
    ∧ (w.mWindowSize = ⟨800, 600⟩ →
        (getTransform (reset w)).2.mDestination
          = quad ⟨0, 0⟩ ⟨800, 0⟩ ⟨800, 600⟩ ⟨0, 600⟩) := by
  obtain ⟨-, hs, hdst, -⟩ := getTransform_dirty w hd
  obtain ⟨h0, h1, h3⟩ := reachable_source base w hr
  refine ⟨?_, ?_, fun hws => ?_⟩
  · rw [hdst, hp, destinationOf_four]
  · rw [hs, updateSource_eq _ _ _ h0 h1 h3]
    rfl
  · obtain ⟨-, -, hdst2, -⟩ := getTransform_dirty (reset w) rfl
    rw [hdst2]
    show destinationOf unitSquare w.mWindowSize = _
    rw [hws, destinationOf_unitSquare]
    rfl

theorem destination_quad_witness :
    (getTransform staleWarp).2.mDestination
        = quad ⟨(0 : ℚ) * staleWarp.mWindowSize.x, (0 : ℚ) * staleWarp.mWindowSize.y⟩
            ⟨(1 : ℚ) * staleWarp.mWindowSize.x, (0 : ℚ) * staleWarp.mWindowSize.y⟩
            ⟨(1 : ℚ) * staleWarp.mWindowSize.x, (1 : ℚ) * staleWarp.mWindowSize.y⟩
            ⟨(0 : ℚ) * staleWarp.mWindowSize.x, (1 : ℚ) * staleWarp.mWindowSize.y⟩
    ∧ (getTransform staleWarp).2.mSource
        = quad ⟨0, 0⟩ ⟨(staleWarp.mWidth : ℚ), 0⟩
            ⟨(staleWarp.mWidth : ℚ), (staleWarp.mHeight : ℚ)⟩ ⟨0, (staleWarp.mHeight : ℚ)⟩
    ∧ (staleWarp.mWindowSize = ⟨800, 600⟩ →
        (getTransform (reset staleWarp)).2.mDestination
          = quad ⟨0, 0⟩ ⟨800, 0⟩ ⟨800, 600⟩ ⟨0, 600⟩) :=
  destination_quad idleBase staleWarp staleWarp_reachable rfl ⟨0, 0⟩ ⟨1, 0⟩ ⟨1, 1⟩ ⟨0, 1⟩ rfl

/-- C18: in every reachable state with positive content size `(width, height)` and a
window size `(vx, vy)` without zero component, `reset` followed by `getTransform`
returns the matrix with diagonal `(vx/width, vy/height, 1, 1)` and zeros elsewhere; it
is the identity when the window size equals the content size. -/
theorem reset_is_scale (base : WarpBase → KeyEvent → WarpBase × KeyEvent) (w : Warp)
    (hr : Reachable base w) (hW : 0 < w.mWidth) (hH : 0 < w.mHeight)
    (hx : w.mWindowSize.x ≠ 0) (hy : w.mWindowSize.y ≠ 0) :
    (getTransform (reset w)).1
        = mat4 (w.mWindowSize.x / (w.mWidth : ℚ)) 0 0 0
            0 (w.mWindowSize.y / (w.mHeight : ℚ)) 0 0
            0 0 1 0
            0 0 0 1
    ∧ (w.mWindowSize.x = (w.mWidth : ℚ) → w.mWindowSize.y = (w.mHeight : ℚ) →
        (getTransform (reset w)).1 = 1) := by
  obtain ⟨hT, -⟩ := getTransform_dirty (reset w) rfl
  obtain ⟨h0, h1, h3⟩ := reachable_source base w hr
  have hWq : (w.mWidth : ℚ) ≠ 0 := by exact_mod_cast (ne_of_gt hW)
  have hHq : (w.mHeight : ℚ) ≠ 0 := by exact_mod_cast (ne_of_gt hH)
  have e : (getTransform (reset w)).1
      = mat4 (w.mWindowSize.x / (w.mWidth : ℚ)) 0 0 0
          0 (w.mWindowSize.y / (w.mHeight : ℚ)) 0 0 0 0 1 0 0 0 0 1 := by
    rw [hT]
    show getPerspectiveTransform (updateSource w.mSource w.mWidth w.mHeight)
      (destinationOf unitSquare w.mWindowSize) = _
    rw [updateSource_eq _ _ _ h0 h1 h3]
    have hd : destinationOf unitSquare w.mWindowSize
        = rect w.mWindowSize.x w.mWindowSize.y := destinationOf_unitSquare _ _
    rw [hd]
    exact getPerspectiveTransform_rect _ _ _ _ hWq hHq hx hy
  refine ⟨e, fun ex ey => ?_⟩
  rw [e, ex, ey, div_self hWq, div_self hHq, mat4_one]

theorem reset_is_scale_witness :
    (getTransform (reset staleWarp)).1
        = mat4 (staleWarp.mWindowSize.x / (staleWarp.mWidth : ℚ)) 0 0 0
            0 (staleWarp.mWindowSize.y / (staleWarp.mHeight : ℚ)) 0 0
            0 0 1 0
            0 0 0 1
    ∧ (staleWarp.mWindowSize.x = (staleWarp.mWidth : ℚ) →
        staleWarp.mWindowSize.y = (staleWarp.mHeight : ℚ) →
        (getTransform (reset staleWarp)).1 = 1) :=
  reset_is_scale idleBase staleWarp staleWarp_reachable (by decide) (by decide)
    (by simp [staleWarp]) (by simp [staleWarp])


theorem gaussianElimination_unfold (a0 : Buf) :
    gaussianElimination a0 9 = backSubstitute (forwardLoop 9 8 0 0 a0) 9 8 := rfl

theorem echelon_zero (a : Buf) : Echelon a 0 :=
  ⟨fun c hc => absurd hc (Nat.not_lt_zero c), fun c _ hc => absurd hc (Nat.not_lt_zero c)⟩

/-- On a nonsingular system the left 8×8 block of the buffer returned is upper
triangular with unit diagonal. -/
theorem gaussianElimination_echelon (a0 : Buf) (hsz : a0.size = 72)
    (hns : (coeffBlock a0).det ≠ 0) : Echelon (gaussianElimination a0 9) 8 := by
  obtain ⟨s, he, -⟩ := forwardLoop_spec a0 hns 8 0 a0 rfl hsz (echelon_zero a0) (fun w h => h)
  obtain ⟨-, e2, -⟩ := backSubstituteLoop_spec 7 (le_refl _) (forwardLoop 9 8 0 0 a0) s
  rw [gaussianElimination_unfold]
  constructor
  · intro c hc
    have := e2 c c (by omega) (Or.inl hc)
    unfold backSubstitute
    rw [this]
    exact he.1 c hc
  · intro c x hc hcx hx
    have := e2 x c (by omega) (Or.inl hc)
    unfold backSubstitute
    rw [this]
    exact he.2 c x hc hcx hx

/-- On a nonsingular system the last column of the buffer returned solves the system
the buffer held on entry, in matrix form. -/
theorem gaussianElimination_mulVec (a0 : Buf) (hsz : a0.size = 72)
    (hns : (coeffBlock a0).det ≠ 0) :
    (coeffBlock a0).mulVec (rhs (gaussianElimination a0 9)) = rhs a0 := by
  have H := gaussianElimination_solves a0 hsz hns
  funext r
  have h1 := H r.val r.isLt
  unfold rowDot at h1
  rw [Finset.sum_range_succ, Finset.sum_range] at h1
  simp only [if_true, mul_neg, mul_one] at h1
  have h2 : ∀ c : Fin 8, (if (c : ℕ) = 8 then (-1 : ℚ)
      else rd (gaussianElimination a0 9) ((c : ℕ) * 9 + 8))
      = rd (gaussianElimination a0 9) ((c : ℕ) * 9 + 8) := by
    intro c
    rw [if_neg (by have := c.isLt; omega)]
  simp only [h2] at h1
  simp only [Matrix.mulVec, Matrix.dotProduct, coeffBlock, Matrix.of_apply, rhs]
  linarith

/-- C15: for every 8×9 augmented matrix `[A | b]` whose coefficient block `A` is
nonsingular, after `gaussianElimination(a, 9)` the last column of the buffer is a
vector `x` with `A x = b` for the `A` and `b` the buffer held on entry, it is the only
such vector, and the left 8×8 block of the buffer is upper triangular with unit
diagonal. -/
theorem solve_correct (a0 : Buf) (hsz : a0.size = 72) (hns : (coeffBlock a0).det ≠ 0) :
    (coeffBlock a0).mulVec (rhs (gaussianElimination a0 9)) = rhs a0
    ∧ (∀ y : Fin 8 → ℚ, (coeffBlock a0).mulVec y = rhs a0 → y = rhs (gaussianElimination a0 9))
    ∧ (∀ r c, r < 8 → c < r → rd (gaussianElimination a0 9) (r * 9 + c) = 0)
    ∧ (∀ r, r < 8 → rd (gaussianElimination a0 9) (r * 9 + r) = 1) := by
  have hx := gaussianElimination_mulVec a0 hsz hns
  have he := gaussianElimination_echelon a0 hsz hns
  refine ⟨hx, fun y hy => ?_, fun r c hr hc => he.2 c r (by omega) hc hr, fun r hr => he.1 r hr⟩
  have h0 : (coeffBlock a0).mulVec (y - rhs (gaussianElimination a0 9)) = 0 := by
    rw [Matrix.mulVec_sub, hy, hx, sub_self]
  exact sub_eq_zero.mp (Matrix.eq_zero_of_mulVec_eq_zero hns h0)

theorem solve_correct_witness :
    (coeffBlock (flat (initP (rect 1 1) (rect 2 3)))).mulVec
        (rhs (gaussianElimination (flat (initP (rect 1 1) (rect 2 3))) 9))
      = rhs (flat (initP (rect 1 1) (rect 2 3)))
    ∧ (∀ y : Fin 8 → ℚ, (coeffBlock (flat (initP (rect 1 1) (rect 2 3)))).mulVec y
          = rhs (flat (initP (rect 1 1) (rect 2 3))) →
        y = rhs (gaussianElimination (flat (initP (rect 1 1) (rect 2 3))) 9))
    ∧ (∀ r c, r < 8 → c < r →
        rd (gaussianElimination (flat (initP (rect 1 1) (rect 2 3))) 9) (r * 9 + c) = 0)
    ∧ (∀ r, r < 8 →
        rd (gaussianElimination (flat (initP (rect 1 1) (rect 2 3))) 9) (r * 9 + r) = 1) :=
  solve_correct (flat (initP (rect 1 1) (rect 2 3))) (size_flat_initP _ _)
    (det_rect 1 1 2 3 (by norm_num) (by norm_num) (by norm_num) (by norm_num))


/-- The pivot columns of a run started at row `i` and column `j` lie in `j..n-1`, and
there are at most `m - i` of them: each one uses up a row. -/
theorem pivotColumns_bound (n m : Nat) :
    ∀ (d i j : Nat) (a : Buf), n - j = d →
      (∀ c ∈ pivotColumns n m i j a, j ≤ c ∧ c < n)
      ∧ (pivotColumns n m i j a).length ≤ m - i := by
  intro d
  induction d using Nat.strong_induction_on with
  | _ d ih =>
    intro i j a hd
    rw [pivotColumns]
    by_cases h1 : i < m ∧ j < n
    · rw [if_pos h1]
      simp only []
      by_cases h2 : rd a (findPivot a n m i j * n + j) ≠ 0
      · rw [if_pos h2]
        obtain ⟨b1, b2⟩ := ih (n - (j + 1)) (by omega) (i + 1) (j + 1)
          (eliminateBelow (divideRow (if i ≠ findPivot a n m i j then
            swapRows a n i (findPivot a n m i j) else a) n i
            (rd (if i ≠ findPivot a n m i j then
              swapRows a n i (findPivot a n m i j) else a) (i * n + j))) n m i j) rfl
        constructor
        · intro c hc
          rcases List.mem_cons.mp hc with hc | hc
          · omega
          · have := b1 c hc
            omega
        · rw [List.length_cons]
          omega
      · rw [if_neg h2]
        obtain ⟨b1, b2⟩ := ih (n - (j + 1)) (by omega) i (j + 1) a rfl
        exact ⟨fun c hc => by have := b1 c hc; omega, b2⟩
    · rw [if_neg h1]
      exact ⟨fun c hc => by simp at hc, by simp⟩

/-- On a nonsingular system no column is skipped: started on the diagonal at row `i`
the pivot columns are `i, i+1, ..., 7`. -/
theorem pivotColumns_nonsingular (a0 : Buf) (hns : (coeffBlock a0).det ≠ 0) :
    ∀ (d i : Nat) (a : Buf), i + d = 8 → a.size = 72 → Echelon a i →
      (∀ w : Nat → ℚ, (∀ x, x < 8 → rowDot a x w = 0) → ∀ x, x < 8 → rowDot a0 x w = 0) →
      pivotColumns 9 8 i i a = List.range' i d := by
  intro d
  induction d with
  | zero =>
    intro i a hid hsz he hnull
    have hi : i = 8 := by omega
    subst hi
    rw [pivotColumns, if_neg (by omega)]
    rfl
  | succ d ih =>
    intro i a hid hsz he hnull
    have hi : i < 8 := by omega
    obtain ⟨hk1, hk2, -⟩ := findPivot_spec a i i hi
    have hp := pivot_ne_zero a0 a hns i hi he hnull
    rw [pivotColumns, if_pos ⟨hi, by omega⟩]
    simp only []
    rw [if_pos hp, List.range'_succ]
    congr 1
    apply ih (i + 1) _ (by omega)
    · exact (pivotStep_spec a hsz i i _ hi (by omega) hk2 hk1).1
    · exact pivotStep_echelon a hsz i _ hi hk2 hk1 hp he
    · intro w hw
      exact hnull w (pivotStep_null a hsz i i _ hi (by omega) hk2 hk1 hp w hw)

/-- C16, amended: for every 8×9 input of 72 entries the pivot column always lies in
`0..8`. With arithmetic taken as exact (every `float` a rational number, so that the
test `a[maxi*n+j] != 0` is a test of the exact value), when the 8×8 coefficient block
is nonsingular no column is skipped and the pivot columns are exactly `0, 1, ..., 7`,
so that column 8 is only the right-hand side. Column 8 is selected as a pivot column
only when some column of `0..7` is not a pivot column, having been skipped for a pivot
value of zero. -/
theorem pivot_columns (a : Buf) (hsz : a.size = 72) :
    (∀ c ∈ pivotColumns 9 8 0 0 a, c < 9)
    ∧ ((coeffBlock a).det ≠ 0 → pivotColumns 9 8 0 0 a = [0, 1, 2, 3, 4, 5, 6, 7])
    ∧ (8 ∈ pivotColumns 9 8 0 0 a → ∃ c, c < 8 ∧ c ∉ pivotColumns 9 8 0 0 a) := by
  obtain ⟨b1, b2⟩ := pivotColumns_bound 9 8 9 0 0 a rfl
  refine ⟨fun c hc => (b1 c hc).2, fun hns => ?_, fun h8 => ?_⟩
  · exact pivotColumns_nonsingular a hns 8 0 a rfl hsz (echelon_zero a) (fun w h => h)
  · by_contra hall
    push_neg at hall
    have hsub : Finset.range 9 ⊆ (pivotColumns 9 8 0 0 a).toFinset := by
      intro c hc
      rw [List.mem_toFinset]
      rcases Nat.lt_or_ge c 8 with h | h
      · exact hall c h
      · have : c = 8 := by have := Finset.mem_range.mp hc; omega
        rw [this]
        exact h8
    have h1 := Finset.card_le_card hsub
    have h2 := List.toFinset_card_le (pivotColumns 9 8 0 0 a)
    rw [Finset.card_range] at h1
    omega

theorem pivot_columns_witness :
    (∀ c ∈ pivotColumns 9 8 0 0 sampleSystem, c < 9)
    ∧ ((coeffBlock sampleSystem).det ≠ 0 →
        pivotColumns 9 8 0 0 sampleSystem = [0, 1, 2, 3, 4, 5, 6, 7])
    ∧ (8 ∈ pivotColumns 9 8 0 0 sampleSystem →
        ∃ c, c < 8 ∧ c ∉ pivotColumns 9 8 0 0 sampleSystem) :=
  pivot_columns sampleSystem (size_flat_initP _ _)


set_option maxRecDepth 1000000 in
set_option maxHeartbeats 4000000 in
/-- C16, as stated, fails: on the 72-entry system built for content of size 0×0 the
columns 0 and 1 are skipped, the pivot columns are 2, 5 and 8, and the forward phase
normalises row 2 on the augmented column 8 and eliminates that column in the rows
below it. -/
theorem pivot_column_counterexample :
    degenerateSystem.size = 72
    ∧ pivotColumns 9 8 0 0 degenerateSystem = [2, 5, 8]
    ∧ ¬ (∀ c ∈ pivotColumns 9 8 0 0 degenerateSystem, c < 8)
    ∧ (List.range 8).map (fun r => rd degenerateSystem (r * 9 + 8)) = [0, 0, -1, 0, -1, -1, 0, -1]
    ∧ (List.range 8).map (fun r => rd (forwardLoop 9 8 0 0 degenerateSystem) (r * 9 + 8))
        = [0, 0, 1, 0, 0, 0, 0, 0] := by
  with_unfolding_all decide


/-- A checked loop whose every step is accepted, while an invariant holds, runs to the
end and computes what the unchecked loop computes. -/
theorem foldlM_eq_some {α β : Type} (I : β → Prop) (f : β → α → β) (g : β → α → Option β) :
    ∀ (l : List α), (∀ b x, x ∈ l → I b → g b x = some (f b x) ∧ I (f b x)) →
      ∀ b, I b → l.foldlM g b = some (l.foldl f b) ∧ I (l.foldl f b) := by
  intro l
  induction l with
  | nil =>
    intro _ b hb
    exact ⟨rfl, hb⟩
  | cons x l ih =>
    intro hstep b hb
    obtain ⟨h1, h2⟩ := hstep b x (List.mem_cons_self x l) hb
    rw [List.foldlM_cons, h1, List.foldl_cons]
    exact ih (fun b y hy hI => hstep b y (List.mem_cons_of_mem x hy) hI) (f b x) h2

theorem rdC_eq (a : Buf) (idx : Nat) (h : idx < a.size) : rdC a idx = some (rd a idx) := by
  unfold rdC
  rw [if_pos h]

theorem writeC_eq (a : Buf) (idx : Nat) (v : ℚ) (h : idx < a.size) :
    writeC a idx v = some (write a idx v) := by
  unfold writeC
  rw [if_pos h]

theorem divC_eq (x y : ℚ) (h : y ≠ 0) : divC x y = some (x / y) := by
  unfold divC
  rw [if_neg h]

theorem findPivotC_eq (a : Buf) (hsz : a.size = 72) (i j : Nat) (hi : i < 8) (hj : j < 9) :
    findPivotC a 9 8 i j = some (findPivot a 9 8 i j) := by
  unfold findPivotC findPivot
  refine (foldlM_eq_some (fun maxi : Nat => maxi < 8) _ _ _ ?_ i hi).1
  intro maxi k hk hm
  have hk8 : k < 8 := by
    have := List.mem_range'.mp hk
    omega
  rw [rdC_eq a (k * 9 + j) (by omega), rdC_eq a (maxi * 9 + j) (by omega)]
  refine ⟨rfl, ?_⟩
  split_ifs <;> assumption

theorem swapRowsC_eq (a : Buf) (hsz : a.size = 72) (i k : Nat) (hi : i < 8) (hk : k < 8) :
    swapRowsC a 9 i k = some (swapRows a 9 i k) ∧ (swapRows a 9 i k).size = 72 := by
  unfold swapRowsC swapRows
  refine foldlM_eq_some (fun b : Buf => b.size = 72) _ _ _ ?_ a hsz
  intro b c hc hb
  have hc9 : c < 9 := List.mem_range.mp hc
  rw [rdC_eq b (i * 9 + c) (by omega), rdC_eq b (k * 9 + c) (by omega)]
  simp only [Option.bind_eq_bind, Option.some_bind]
  rw [writeC_eq b (i * 9 + c) _ (by omega)]
  simp only [Option.some_bind]
  rw [writeC_eq _ (k * 9 + c) _ (by rw [size_write]; omega)]
  exact ⟨rfl, by rw [size_write, size_write]; exact hb⟩

theorem divideRowC_eq (a : Buf) (hsz : a.size = 72) (i : Nat) (hi : i < 8) (q : ℚ)
    (hq : q ≠ 0) :
    divideRowC a 9 i q = some (divideRow a 9 i q) ∧ (divideRow a 9 i q).size = 72 := by
  unfold divideRowC divideRow
  refine foldlM_eq_some (fun b : Buf => b.size = 72) _ _ _ ?_ a hsz
  intro b c hc hb
  have hc9 : c < 9 := List.mem_range.mp hc
  rw [rdC_eq b (i * 9 + c) (by omega)]
  simp only [Option.bind_eq_bind, Option.some_bind]
  rw [divC_eq _ q hq]
  simp only [Option.some_bind]
  rw [writeC_eq b (i * 9 + c) _ (by omega)]
  exact ⟨rfl, by rw [size_write]; exact hb⟩

theorem eliminateRowC_eq (a : Buf) (hsz : a.size = 72) (i u : Nat) (hi : i < 8) (hu : u < 8)
    (q : ℚ) :
    eliminateRowC a 9 i u q = some (eliminateRow a 9 i u q)
      ∧ (eliminateRow a 9 i u q).size = 72 := by
  unfold eliminateRowC eliminateRow
  refine foldlM_eq_some (fun b : Buf => b.size = 72) _ _ _ ?_ a hsz
  intro b c hc hb
  have hc9 : c < 9 := List.mem_range.mp hc
  rw [rdC_eq b (u * 9 + c) (by omega), rdC_eq b (i * 9 + c) (by omega)]
  simp only [Option.bind_eq_bind, Option.some_bind]
  rw [writeC_eq b (u * 9 + c) _ (by omega)]
  exact ⟨rfl, by rw [size_write]; exact hb⟩

theorem eliminateBelowC_eq (a : Buf) (hsz : a.size = 72) (i j : Nat) (hi : i < 8)
    (hj : j < 9) :
    eliminateBelowC a 9 8 i j = some (eliminateBelow a 9 8 i j)
      ∧ (eliminateBelow a 9 8 i j).size = 72 := by
  unfold eliminateBelowC eliminateBelow
  refine foldlM_eq_some (fun b : Buf => b.size = 72) _ _ _ ?_ a hsz
  intro b u hu hb
  have hu8 : u < 8 := by
    have := List.mem_range'.mp hu
    omega
  rw [rdC_eq b (u * 9 + j) (by omega)]
  simp only [Option.bind_eq_bind, Option.some_bind]
  exact eliminateRowC_eq b hb i u hi hu8 _

theorem backSubstituteRowC_eq (a : Buf) (hsz : a.size = 72) (i : Nat) (hi : i < 7) :
    backSubstituteRowC a 9 8 i = some (backSubstituteRow a 9 8 i)
      ∧ (backSubstituteRow a 9 8 i).size = 72 := by
  unfold backSubstituteRowC backSubstituteRow
  refine foldlM_eq_some (fun b : Buf => b.size = 72) _ _ _ ?_ a hsz
  intro b j hj hb
  have hj8 : j < 8 := by
    have := List.mem_range'.mp hj
    omega
  rw [rdC_eq b (i * 9 + 8) (by omega), rdC_eq b (i * 9 + j) (by omega),
    rdC_eq b (j * 9 + 8) (by omega)]
  simp only [Option.bind_eq_bind, Option.some_bind]
  rw [writeC_eq b (i * 9 + 8) _ (by omega)]
  exact ⟨rfl, by rw [size_write]; exact hb⟩

theorem backSubstituteC_eq (a : Buf) (hsz : a.size = 72) :
    backSubstituteC a 9 8 = some (backSubstitute a 9 8) ∧ (backSubstitute a 9 8).size = 72 := by
  unfold backSubstituteC backSubstitute
  refine foldlM_eq_some (fun b : Buf => b.size = 72) _ _ _ ?_ a hsz
  intro b i hi hb
  have hi7 : i < 7 := by
    have := List.mem_range.mp (List.mem_reverse.mp hi)
    omega
  exact backSubstituteRowC_eq b hb i hi7

/-- The forward phase on a 72-entry buffer: every load and store is inside the buffer,
the divisor of the normalisation is not zero, and the loop ends. -/
theorem forwardLoopC_eq :
    ∀ (d i j : Nat) (a : Buf), 9 - j = d → a.size = 72 →
      forwardLoopC 9 8 i j a = some (forwardLoop 9 8 i j a)
      ∧ (forwardLoop 9 8 i j a).size = 72 := by
  intro d
  induction d using Nat.strong_induction_on with
  | _ d ih =>
    intro i j a hd hsz
    rw [forwardLoopC, forwardLoop]
    by_cases h : i < 8 ∧ j < 9
    · obtain ⟨hi, hj⟩ := h
      obtain ⟨hk1, hk2, -⟩ := findPivot_spec a i j hi
      rw [if_pos ⟨hi, hj⟩, if_pos ⟨hi, hj⟩, findPivotC_eq a hsz i j hi hj]
      simp only []
      rw [rdC_eq a _ (by omega)]
      simp only []
      by_cases hp : rd a (findPivot a 9 8 i j * 9 + j) ≠ 0
      · rw [if_pos hp, if_pos hp]
        obtain ⟨s1, e1⟩ := swapStep_spec a hsz i (findPivot a 9 8 i j) hi hk2
        have hsw : (if i ≠ findPivot a 9 8 i j then swapRowsC a 9 i (findPivot a 9 8 i j)
            else some a)
            = some (if i ≠ findPivot a 9 8 i j then swapRows a 9 i (findPivot a 9 8 i j)
                else a) := by
          split_ifs
          · exact (swapRowsC_eq a hsz i _ hi hk2).1
          · rfl
        rw [hsw]
        simp only []
        have hdiv : rd (if i ≠ findPivot a 9 8 i j then swapRows a 9 i (findPivot a 9 8 i j)
            else a) (i * 9 + j) ≠ 0 := by
          rw [e1 i j hj, if_pos rfl]
          exact hp
        generalize (if i ≠ findPivot a 9 8 i j then swapRows a 9 i (findPivot a 9 8 i j)
            else a) = a1 at s1 hdiv ⊢
        rw [rdC_eq a1 _ (by omega)]
        simp only []
        obtain ⟨d1, s2⟩ := divideRowC_eq a1 s1 i hi _ hdiv
        rw [d1]
        simp only []
        obtain ⟨d2, s3⟩ := eliminateBelowC_eq _ s2 i j hi hj
        rw [d2]
        simp only []
        exact ih (9 - (j + 1)) (by omega) (i + 1) (j + 1) _ rfl s3
      · rw [if_neg hp, if_neg hp]
        exact ih (9 - (j + 1)) (by omega) i (j + 1) a rfl hsz
    · rw [if_neg h, if_neg h]
      exact ⟨rfl, hsz⟩

/-- The checks are live: on a buffer of three entries the checked run is refused. -/
theorem gaussianEliminationC_refuses : gaussianEliminationC #[1, 2, 3] 9 = none := by
  with_unfolding_all decide

/-- C19: on every buffer of 72 entries `gaussianElimination(a, 9)` returns, and the run
in which every load and store is checked against the bounds `0..71` of the buffer and
every division against a zero divisor refuses none of them: it ends with the same
buffer, which still has 72 entries. The divisor `a[i][j]` read after the row swap is
the pivot value `a[maxi][j]` that was tested before it. -/
theorem solver_safe (a : Buf) (hsz : a.size = 72) :
    gaussianEliminationC a 9 = some (gaussianElimination a 9)
    ∧ (gaussianElimination a 9).size = 72
    ∧ ∀ i j, i < 8 → j < 9 →
        rd (if i ≠ findPivot a 9 8 i j then swapRows a 9 i (findPivot a 9 8 i j) else a)
            (i * 9 + j)
          = rd a (findPivot a 9 8 i j * 9 + j) := by
  obtain ⟨h1, s1⟩ := forwardLoopC_eq 9 0 0 a rfl hsz
  obtain ⟨h2, s2⟩ := backSubstituteC_eq (forwardLoop 9 8 0 0 a) s1
  refine ⟨?_, s2, fun i j hi hj => ?_⟩
  · unfold gaussianEliminationC
    simp only []
    rw [h1]
    exact h2
  · obtain ⟨-, hk2, -⟩ := findPivot_spec a i j hi
    rw [(swapStep_spec a hsz i (findPivot a 9 8 i j) hi hk2).2 i j hj, if_pos rfl]

theorem solver_safe_witness :
    gaussianEliminationC sampleSystem 9 = some (gaussianElimination sampleSystem 9)
    ∧ (gaussianElimination sampleSystem 9).size = 72
    ∧ ∀ i j, i < 8 → j < 9 →
        rd (if i ≠ findPivot sampleSystem 9 8 i j then
              swapRows sampleSystem 9 i (findPivot sampleSystem 9 8 i j) else sampleSystem)
            (i * 9 + j)
          = rd sampleSystem (findPivot sampleSystem 9 8 i j * 9 + j) :=
  solver_safe sampleSystem (size_flat_initP _ _)


end WarpPerspective
